import Mathlib

/-!
Verification of the Kensho decompiler core against its specification.

This file shallowly embeds the data model and the operations of the
decompiler prototype (P-code IR, CFG builder, SSA renaming, NZ-mask
analysis, rewrite rules, def-use chains and copy propagation, jump-table
detection, the x86-64 lifter's flag handling, and the result cache) and
proves or refutes the specification's claims about them.

Machine integers (Rust u64) are modeled as Nat with explicit reduction
mod 2^64 (or mod 2^(8*size)) exactly where the Rust code wraps; Rust
HashMap fields are modeled as association lists or as total functions
with an Option codomain; Rust Vec push/last pairs become List append /
getLast.
-/

namespace Kensho

/-- P-code opcode enumeration, mirroring `OpCode` in pcode.rs (74 kinds). -/
inductive OpCode where
  | Copy | Load | Store
  | Branch | CBranch | BranchInd | Call | CallInd | CallOther | Return
  | IntEqual | IntNotEqual | IntSLess | IntSLessEqual | IntLess | IntLessEqual
  | IntZExt | IntSExt
  | IntAdd | IntSub | IntCarry | IntSCarry | IntSBorrow | Int2Comp
  | IntNegate | IntXor | IntAnd | IntOr | IntLeft | IntRight | IntSRight
  | IntMult | IntDiv | IntSDiv | IntRem | IntSRem
  | BoolNegate | BoolXor | BoolAnd | BoolOr
  | FloatEqual | FloatNotEqual | FloatLess | FloatLessEqual | FloatNan
  | FloatAdd | FloatDiv | FloatMult | FloatSub | FloatNeg | FloatAbs | FloatSqrt
  | FloatInt2Float | FloatFloat2Float | FloatTrunc | FloatCeil | FloatFloor | FloatRound
  | MultiEqual | Indirect
  | Piece | SubPiece | Cast | PtrAdd | PtrSub | SegmentOp | CPoolRef | New
  | Insert | Extract | PopCount | LzCount
  deriving DecidableEq, Repr

/-- Address space tags, mirroring `AddressSpace` in pcode.rs. -/
inductive AddressSpace where
  | Register | Ram | Const | Unique | Stack
  deriving DecidableEq, Repr

/-- A Varnode (space, offset, size); offset is a Rust u64 modeled as Nat,
size a Rust usize modeled as Nat. Mirrors `Varnode` in pcode.rs. -/
structure Varnode where
  space : AddressSpace
  offset : Nat
  size : Nat
  deriving DecidableEq, Repr

/-- Mirror of `Varnode::new`. -/
def Varnode.new (space : AddressSpace) (offset : Nat) (size : Nat) : Varnode :=
  ⟨space, offset, size⟩

/-- Mirror of `Varnode::register`. -/
def Varnode.register (offset : Nat) (size : Nat) : Varnode :=
  Varnode.new AddressSpace.Register offset size

/-- Mirror of `Varnode::ram`. -/
def Varnode.ram (offset : Nat) (size : Nat) : Varnode :=
  Varnode.new AddressSpace.Ram offset size

/-- Mirror of `Varnode::constant`: the value is stored verbatim in the
offset field, with no masking. -/
def Varnode.constant (value : Nat) (size : Nat) : Varnode :=
  Varnode.new AddressSpace.Const value size

/-- Mirror of `Varnode::unique`. -/
def Varnode.unique (offset : Nat) (size : Nat) : Varnode :=
  Varnode.new AddressSpace.Unique offset size

/-- A P-code operation, mirroring `PcodeOp` in pcode.rs. -/
structure PcodeOp where
  opcode : OpCode
  output : Option Varnode
  inputs : List Varnode
  address : Nat
  deriving DecidableEq, Repr

/-- Mirror of `PcodeOp::new`. -/
def PcodeOp.new (opcode : OpCode) (output : Option Varnode)
    (inputs : List Varnode) (address : Nat) : PcodeOp :=
  ⟨opcode, output, inputs, address⟩

/-- Mirror of `PcodeOp::no_output`. -/
def PcodeOp.no_output (opcode : OpCode) (inputs : List Varnode) (address : Nat) : PcodeOp :=
  PcodeOp.new opcode none inputs address

/-- Mirror of `PcodeOp::unary`. -/
def PcodeOp.unary (opcode : OpCode) (output : Varnode) (input : Varnode)
    (address : Nat) : PcodeOp :=
  PcodeOp.new opcode (some output) [input] address

/-- Mirror of `PcodeOp::binary`. -/
def PcodeOp.binary (opcode : OpCode) (output : Varnode) (lhs rhs : Varnode)
    (address : Nat) : PcodeOp :=
  PcodeOp.new opcode (some output) [lhs, rhs] address

/-! ## CFG builder (cfg.rs) -/

/-- A basic block, mirroring `BasicBlock` in cfg.rs. -/
structure BasicBlock where
  id : Nat
  start_address : Nat
  end_address : Nat
  ops : List PcodeOp
  successors : List Nat
  predecessors : List Nat
  deriving DecidableEq, Repr

/-- Mirror of `BasicBlock::new`. -/
def BasicBlock.new (id : Nat) (start_address : Nat) : BasicBlock :=
  ⟨id, start_address, start_address, [], [], []⟩

/-- Mirror of `BasicBlock::add_op` (Vec::push appends at the end). -/
def BasicBlock.add_op (b : BasicBlock) (op : PcodeOp) : BasicBlock :=
  { b with end_address := op.address, ops := b.ops ++ [op] }

/-- An association-list model for `HashMap<BlockId, BasicBlock>`; insert
replaces any existing binding for the key. -/
abbrev BlockMap := List (Nat × BasicBlock)

/-- HashMap::insert. -/
def BlockMap.insert (m : BlockMap) (k : Nat) (v : BasicBlock) : BlockMap :=
  (k, v) :: List.filter (fun p => p.1 != k) m

/-- HashMap::get. -/
def BlockMap.get (m : BlockMap) (k : Nat) : Option BasicBlock :=
  (List.find? (fun p => p.1 == k) m).map Prod.snd

/-- The control flow graph, mirroring `ControlFlowGraph` in cfg.rs. -/
structure ControlFlowGraph where
  blocks : BlockMap
  entry_block : Nat
  next_block_id : Nat

/-- Mirror of `ControlFlowGraph::new`. -/
def ControlFlowGraph.new : ControlFlowGraph :=
  ⟨[], 0, 0⟩

/-- The `should_split` test of `ControlFlowGraph::from_pcodes`: the op is a
control-flow terminator. -/
def isSplitOp (op : PcodeOp) : Bool :=
  match op.opcode with
  | OpCode.Branch | OpCode.CBranch | OpCode.BranchInd | OpCode.Return => true
  | _ => false

/-- One iteration step of the `for op in pcodes` loop of
`ControlFlowGraph::from_pcodes`, threading the current block and the
graph under construction; the trailing non-empty current block is
inserted when the list is exhausted. -/
def fromPcodesLoop : List PcodeOp → BasicBlock → ControlFlowGraph → ControlFlowGraph
  | [], current, cfg =>
      if current.ops.isEmpty then cfg
      else { cfg with blocks := cfg.blocks.insert current.id current }
  | op :: rest, current, cfg =>
      let current' := current.add_op op
      if isSplitOp op then
        let blocks' := cfg.blocks.insert current'.id current'
        fromPcodesLoop rest (BasicBlock.new cfg.next_block_id 0)
          { cfg with blocks := blocks', next_block_id := cfg.next_block_id + 1 }
      else
        fromPcodesLoop rest current' cfg

/-- Mirror of `ControlFlowGraph::from_pcodes`. -/
def ControlFlowGraph.from_pcodes (pcodes : List PcodeOp) : ControlFlowGraph :=
  match pcodes with
  | [] => ControlFlowGraph.new
  | op0 :: _ =>
      fromPcodesLoop pcodes (BasicBlock.new 0 op0.address)
        { ControlFlowGraph.new with entry_block := 0, next_block_id := 1 }

/-- Mirror of `ControlFlowGraph::entry`. -/
def ControlFlowGraph.entry (cfg : ControlFlowGraph) : Option BasicBlock :=
  cfg.blocks.get cfg.entry_block

/-- Mirror of `ControlFlowGraph::block_count` (`HashMap::len`; the
association list keeps one entry per key). -/
def ControlFlowGraph.block_count (cfg : ControlFlowGraph) : Nat :=
  cfg.blocks.length

/-- Property shared by every block the builder ever inserts: at least one
op, and no successor or predecessor edges. -/
def builtBlockOk (b : BasicBlock) : Prop :=
  b.ops ≠ [] ∧ b.successors = [] ∧ b.predecessors = []

/-- A value looked up in a BlockMap is one of its entries. -/
theorem blockMap_get_mem {m : BlockMap} {k : Nat} {b : BasicBlock}
    (h : m.get k = some b) : ∃ p ∈ m, p.2 = b := by
  unfold BlockMap.get at h
  rcases hfind : List.find? (fun p => p.1 == k) m with _ | p
  · rw [hfind] at h; exact Option.noConfusion h
  · rw [hfind] at h
    exact ⟨p, List.mem_of_find?_eq_some hfind, Option.some.inj h⟩

/-- Entries surviving an insert are the new value or old entries. -/
theorem blockMap_mem_insert {m : BlockMap} {k : Nat} {v : BasicBlock} {p : Nat × BasicBlock}
    (h : p ∈ m.insert k v) : p = (k, v) ∨ p ∈ m := by
  unfold BlockMap.insert at h
  rcases List.mem_cons.mp h with h1 | h1
  · exact Or.inl h1
  · exact Or.inr (List.mem_of_mem_filter h1)

/-- Invariant of the builder loop: if every block stored so far is ok and
the current block carries no edges, every block of the final graph is ok. -/
theorem fromPcodesLoop_blocks_ok (ops : List PcodeOp) :
    ∀ (current : BasicBlock) (cfg : ControlFlowGraph),
    (∀ p ∈ cfg.blocks, builtBlockOk p.2) →
    current.successors = [] → current.predecessors = [] →
    ∀ p ∈ (fromPcodesLoop ops current cfg).blocks, builtBlockOk p.2 := by
  induction ops with
  | nil =>
      intro current cfg hblocks hsucc hpred p hp
      unfold fromPcodesLoop at hp
      by_cases hemp : current.ops.isEmpty
      · rw [if_pos hemp] at hp
        exact hblocks p hp
      · rw [if_neg hemp] at hp
        rcases blockMap_mem_insert hp with h | h
        · subst h
          refine ⟨?_, hsucc, hpred⟩
          intro hnil
          exact hemp (List.isEmpty_iff.mpr hnil)
        · exact hblocks p h
  | cons op rest ih =>
      intro current cfg hblocks hsucc hpred p hp
      unfold fromPcodesLoop at hp
      by_cases hsplit : isSplitOp op
      · rw [if_pos hsplit] at hp
        refine ih _ _ ?_ rfl rfl p hp
        intro q hq
        rcases blockMap_mem_insert hq with h | h
        · subst h
          exact ⟨by simp [BasicBlock.add_op], hsucc, hpred⟩
        · exact hblocks q h
      · rw [if_neg hsplit] at hp
        exact ih (current.add_op op) cfg hblocks hsucc hpred p hp

/-- Every block of a CFG built by from_pcodes has at least one op and
empty successor and predecessor lists. Shared helper for C1 and C10. -/
theorem from_pcodes_block_ok (pcodes : List PcodeOp) :
    ∀ id b, (ControlFlowGraph.from_pcodes pcodes).blocks.get id = some b →
    builtBlockOk b := by
  intro id b hget
  rcases blockMap_get_mem hget with ⟨p, hmem, hval⟩
  subst hval
  cases pcodes with
  | nil =>
      simp only [ControlFlowGraph.from_pcodes, ControlFlowGraph.new] at hmem
      cases hmem
  | cons op0 rest =>
      exact fromPcodesLoop_blocks_ok _ _ _ (by intro q hq; cases hq) rfl rfl p hmem

/-- An op list whose first op is a conditional branch with a direct
target, followed by a fall-through op: the builder makes two blocks but
records no edge between them. -/
def c1CexPcodes : List PcodeOp :=
  [PcodeOp.no_output OpCode.CBranch [Varnode.constant 32 8, Varnode.unique 6 1] 16,
   PcodeOp.unary OpCode.Copy (Varnode.register 0 8) (Varnode.constant 1 8) 21]

/-- C1 counterexample: on `c1CexPcodes` the block ending in the CBranch
has an empty successor list even though both the direct-target address
and the fall-through block exist, so from_pcodes does not add edges for
conditional branches as the claim states. -/
theorem C1_counterexample :
    ((ControlFlowGraph.from_pcodes c1CexPcodes).blocks.get 0).map
        (fun b => (b.successors, b.predecessors, b.ops.getLast?.map PcodeOp.opcode))
      = some ([], [], some OpCode.CBranch)
    ∧ ((ControlFlowGraph.from_pcodes c1CexPcodes).blocks.get 1).isSome = true := by
  decide

/-- C1 (amended): from_pcodes is well-formed in the weaker sense the code
realizes: every block it builds contains at least one op, and it adds no
edges at all (successor and predecessor lists are always empty), so the
edge-symmetry invariant holds vacuously. -/
theorem C1_from_pcodes_wellformed (pcodes : List PcodeOp) (id : Nat) (b : BasicBlock)
    (h : (ControlFlowGraph.from_pcodes pcodes).blocks.get id = some b) :
    b.ops ≠ [] ∧ b.successors = [] ∧ b.predecessors = [] :=
  from_pcodes_block_ok pcodes id b h

/-- C1 witness: the amended theorem applied to a concrete one-op list. -/
theorem C1_witness :
    (ControlFlowGraph.from_pcodes
        [PcodeOp.unary OpCode.Copy (Varnode.register 0 8) (Varnode.constant 7 8) 5]).blocks.get 0
      = some ⟨0, 5, 5, [PcodeOp.unary OpCode.Copy (Varnode.register 0 8) (Varnode.constant 7 8) 5], [], []⟩
    ∧ (⟨0, 5, 5, [PcodeOp.unary OpCode.Copy (Varnode.register 0 8) (Varnode.constant 7 8) 5], [], []⟩
        : BasicBlock).ops ≠ [] :=
  ⟨by decide,
   (C1_from_pcodes_wellformed
      [PcodeOp.unary OpCode.Copy (Varnode.register 0 8) (Varnode.constant 7 8) 5] 0 _
      (by decide)).1⟩

/-- C10: on the empty op list from_pcodes returns the fresh graph: no
blocks, entry id 0 absent from the map, entry none, block count zero;
and in general no block is ever created without at least one op. -/
theorem C10_empty_from_pcodes :
    (ControlFlowGraph.from_pcodes []).blocks = []
    ∧ (ControlFlowGraph.from_pcodes []).entry_block = 0
    ∧ (ControlFlowGraph.from_pcodes []).entry = none
    ∧ (ControlFlowGraph.from_pcodes []).block_count = 0
    ∧ ∀ pcodes id b, (ControlFlowGraph.from_pcodes pcodes).blocks.get id = some b →
        b.ops ≠ [] :=
  ⟨rfl, rfl, rfl, rfl, fun pcodes id b h => (from_pcodes_block_ok pcodes id b h).1⟩

/-- C10 witness: the universally quantified conjunct applied to a
concrete one-op list. -/
theorem C10_witness :
    (ControlFlowGraph.from_pcodes
        [PcodeOp.no_output OpCode.Return [Varnode.unique 9 8] 3]).blocks.get 0
      = some ⟨0, 3, 3, [PcodeOp.no_output OpCode.Return [Varnode.unique 9 8] 3], [], []⟩
    ∧ (⟨0, 3, 3, [PcodeOp.no_output OpCode.Return [Varnode.unique 9 8] 3], [], []⟩
        : BasicBlock).ops ≠ [] :=
  ⟨by decide,
   C10_empty_from_pcodes.2.2.2.2
     [PcodeOp.no_output OpCode.Return [Varnode.unique 9 8] 3] 0 _ (by decide)⟩

/-! ## x86-64 lifter (x86_64.rs): registers, flags, arithmetic/logical decoding -/

/-- x86-64 registers, mirroring `X86Register` in x86_64.rs. -/
inductive X86Register where
  | RAX | RCX | RDX | RBX | RSP | RBP | RSI | RDI
  | R8 | R9 | R10 | R11 | R12 | R13 | R14 | R15
  | RIP | RFLAGS
  | XMM0 | XMM1 | XMM2 | XMM3 | XMM4 | XMM5 | XMM6 | XMM7
  | XMM8 | XMM9 | XMM10 | XMM11 | XMM12 | XMM13 | XMM14 | XMM15
  deriving DecidableEq, Repr

/-- The register-space offsets assigned by the `X86Register` enum values. -/
def X86Register.offset : X86Register → Nat
  | .RAX => 0 | .RCX => 8 | .RDX => 16 | .RBX => 24
  | .RSP => 32 | .RBP => 40 | .RSI => 48 | .RDI => 56
  | .R8 => 64 | .R9 => 72 | .R10 => 80 | .R11 => 88
  | .R12 => 96 | .R13 => 104 | .R14 => 112 | .R15 => 120
  | .RIP => 128 | .RFLAGS => 136
  | .XMM0 => 144 | .XMM1 => 160 | .XMM2 => 176 | .XMM3 => 192
  | .XMM4 => 208 | .XMM5 => 224 | .XMM6 => 240 | .XMM7 => 256
  | .XMM8 => 272 | .XMM9 => 288 | .XMM10 => 304 | .XMM11 => 320
  | .XMM12 => 336 | .XMM13 => 352 | .XMM14 => 368 | .XMM15 => 384

/-- Mirror of `X86Register::to_varnode`. -/
def X86Register.to_varnode (r : X86Register) (size : Nat) : Varnode :=
  Varnode.register r.offset size

/-- Rust `imm as u64` for an `i64` immediate: two's-complement reduction
into 64 bits. -/
def toU64 (i : Int) : Nat :=
  (i % (2 ^ 64 : Int)).toNat

/-- Flag bit offsets from the `flags` module of x86_64.rs. -/
def flagCF : Nat := 0
/-- ZF bit offset. -/
def flagZF : Nat := 6
/-- SF bit offset. -/
def flagSF : Nat := 7
/-- OF bit offset. -/
def flagOF : Nat := 11

/-- Mirror of `X86Decoder::zf_varnode`. -/
def zf_varnode : Varnode := Varnode.unique flagZF 1
/-- Mirror of `X86Decoder::sf_varnode`. -/
def sf_varnode : Varnode := Varnode.unique flagSF 1
/-- Mirror of `X86Decoder::of_varnode`. -/
def of_varnode : Varnode := Varnode.unique flagOF 1
/-- Mirror of `X86Decoder::cf_varnode`. -/
def cf_varnode : Varnode := Varnode.unique flagCF 1

/-- The lifter's mutable state: the unique-temporary counter. -/
structure X86Decoder where
  unique_counter : Nat
  deriving DecidableEq, Repr

/-- Mirror of `X86Decoder::new`. -/
def X86Decoder.new : X86Decoder := ⟨65536⟩

/-- Mirror of `X86Decoder::next_unique` (state-passing). -/
def X86Decoder.next_unique (d : X86Decoder) (size : Nat) : Varnode × X86Decoder :=
  (Varnode.unique d.unique_counter size, ⟨d.unique_counter + size⟩)

/-- Mirror of `X86Decoder::update_flags_arithmetic`: write ZF and SF
from the result; CF/OF untouched. -/
def update_flags_arithmetic (result : Varnode) (address : Nat) : List PcodeOp :=
  let zero := Varnode.constant 0 result.size
  [PcodeOp.binary OpCode.IntEqual zf_varnode result zero address,
   PcodeOp.binary OpCode.IntSLess sf_varnode result zero address]

/-- Mirror of `X86Decoder::update_flags_logical`: write ZF and SF from
the result and clear CF and OF. -/
def update_flags_logical (result : Varnode) (address : Nat) : List PcodeOp :=
  let zero := Varnode.constant 0 result.size
  let zero1 := Varnode.constant 0 1
  [PcodeOp.binary OpCode.IntEqual zf_varnode result zero address,
   PcodeOp.binary OpCode.IntSLess sf_varnode result zero address,
   PcodeOp.unary OpCode.Copy cf_varnode zero1 address,
   PcodeOp.unary OpCode.Copy of_varnode zero1 address]

/-- Mirror of `X86Decoder::decode_add`. -/
def decode_add (dest src : X86Register) (size : Nat) (address : Nat) : List PcodeOp :=
  let dest_vn := dest.to_varnode size
  let src_vn := src.to_varnode size
  PcodeOp.binary OpCode.IntAdd dest_vn dest_vn src_vn address
    :: update_flags_arithmetic dest_vn address

/-- Mirror of `X86Decoder::decode_add_imm`. -/
def decode_add_imm (dest : X86Register) (imm : Int) (size : Nat) (address : Nat) : List PcodeOp :=
  let dest_vn := dest.to_varnode size
  let imm_vn := Varnode.constant (toU64 imm) size
  PcodeOp.binary OpCode.IntAdd dest_vn dest_vn imm_vn address
    :: update_flags_arithmetic dest_vn address

/-- Mirror of `X86Decoder::decode_sub`. -/
def decode_sub (dest src : X86Register) (size : Nat) (address : Nat) : List PcodeOp :=
  let dest_vn := dest.to_varnode size
  let src_vn := src.to_varnode size
  PcodeOp.binary OpCode.IntSub dest_vn dest_vn src_vn address
    :: update_flags_arithmetic dest_vn address

/-- Mirror of `X86Decoder::decode_sub_imm`. -/
def decode_sub_imm (dest : X86Register) (imm : Int) (size : Nat) (address : Nat) : List PcodeOp :=
  let dest_vn := dest.to_varnode size
  let imm_vn := Varnode.constant (toU64 imm) size
  PcodeOp.binary OpCode.IntSub dest_vn dest_vn imm_vn address
    :: update_flags_arithmetic dest_vn address

/-- Mirror of `X86Decoder::decode_inc`. -/
def decode_inc (reg : X86Register) (size : Nat) (address : Nat) : List PcodeOp :=
  let reg_vn := reg.to_varnode size
  let one := Varnode.constant 1 size
  PcodeOp.binary OpCode.IntAdd reg_vn reg_vn one address
    :: update_flags_arithmetic reg_vn address

/-- Mirror of `X86Decoder::decode_dec`. -/
def decode_dec (reg : X86Register) (size : Nat) (address : Nat) : List PcodeOp :=
  let reg_vn := reg.to_varnode size
  let one := Varnode.constant 1 size
  PcodeOp.binary OpCode.IntSub reg_vn reg_vn one address
    :: update_flags_arithmetic reg_vn address

/-- Mirror of `X86Decoder::decode_neg`. -/
def decode_neg (reg : X86Register) (size : Nat) (address : Nat) : List PcodeOp :=
  let reg_vn := reg.to_varnode size
  PcodeOp.unary OpCode.Int2Comp reg_vn reg_vn address
    :: update_flags_arithmetic reg_vn address

/-- Mirror of `X86Decoder::decode_inc_mem`: load, add 1, store; the
flag update is omitted in the source. -/
def decode_inc_mem (d : X86Decoder) (mem_addr : Varnode) (size : Nat)
    (address : Nat) : List PcodeOp × X86Decoder :=
  let (value_temp, d) := d.next_unique size
  let one := Varnode.constant 1 size
  let (result_temp, d) := d.next_unique size
  ([PcodeOp.unary OpCode.Load value_temp mem_addr address,
    PcodeOp.binary OpCode.IntAdd result_temp value_temp one address,
    PcodeOp.no_output OpCode.Store [mem_addr, result_temp] address], d)

/-- Mirror of `X86Decoder::decode_dec_mem`. -/
def decode_dec_mem (d : X86Decoder) (mem_addr : Varnode) (size : Nat)
    (address : Nat) : List PcodeOp × X86Decoder :=
  let (value_temp, d) := d.next_unique size
  let one := Varnode.constant 1 size
  let (result_temp, d) := d.next_unique size
  ([PcodeOp.unary OpCode.Load value_temp mem_addr address,
    PcodeOp.binary OpCode.IntSub result_temp value_temp one address,
    PcodeOp.no_output OpCode.Store [mem_addr, result_temp] address], d)

/-- Mirror of `X86Decoder::decode_and`. -/
def decode_and (dest src : X86Register) (size : Nat) (address : Nat) : List PcodeOp :=
  let dest_vn := dest.to_varnode size
  let src_vn := src.to_varnode size
  PcodeOp.binary OpCode.IntAnd dest_vn dest_vn src_vn address
    :: update_flags_logical dest_vn address

/-- Mirror of `X86Decoder::decode_and_imm`. -/
def decode_and_imm (dest : X86Register) (imm : Int) (size : Nat) (address : Nat) : List PcodeOp :=
  let dest_vn := dest.to_varnode size
  let imm_vn := Varnode.constant (toU64 imm) size
  PcodeOp.binary OpCode.IntAnd dest_vn dest_vn imm_vn address
    :: update_flags_logical dest_vn address

/-- Mirror of `X86Decoder::decode_or`. -/
def decode_or (dest src : X86Register) (size : Nat) (address : Nat) : List PcodeOp :=
  let dest_vn := dest.to_varnode size
  let src_vn := src.to_varnode size
  PcodeOp.binary OpCode.IntOr dest_vn dest_vn src_vn address
    :: update_flags_logical dest_vn address

/-- Mirror of `X86Decoder::decode_or_imm`. -/
def decode_or_imm (dest : X86Register) (imm : Int) (size : Nat) (address : Nat) : List PcodeOp :=
  let dest_vn := dest.to_varnode size
  let imm_vn := Varnode.constant (toU64 imm) size
  PcodeOp.binary OpCode.IntOr dest_vn dest_vn imm_vn address
    :: update_flags_logical dest_vn address

/-- Mirror of `X86Decoder::decode_xor`. -/
def decode_xor (dest src : X86Register) (size : Nat) (address : Nat) : List PcodeOp :=
  let dest_vn := dest.to_varnode size
  let src_vn := src.to_varnode size
  PcodeOp.binary OpCode.IntXor dest_vn dest_vn src_vn address
    :: update_flags_logical dest_vn address

/-- Mirror of `X86Decoder::decode_xor_imm`. -/
def decode_xor_imm (dest : X86Register) (imm : Int) (size : Nat) (address : Nat) : List PcodeOp :=
  let dest_vn := dest.to_varnode size
  let imm_vn := Varnode.constant (toU64 imm) size
  PcodeOp.binary OpCode.IntXor dest_vn dest_vn imm_vn address
    :: update_flags_logical dest_vn address

/-- Mirror of `X86Decoder::decode_test`. -/
def decode_test (d : X86Decoder) (lhs rhs : X86Register) (size : Nat)
    (address : Nat) : List PcodeOp × X86Decoder :=
  let lhs_vn := lhs.to_varnode size
  let rhs_vn := rhs.to_varnode size
  let (temp, d) := d.next_unique size
  (PcodeOp.binary OpCode.IntAnd temp lhs_vn rhs_vn address
     :: update_flags_logical temp address, d)

/-- Mirror of `X86Decoder::decode_test_imm`. -/
def decode_test_imm (d : X86Decoder) (reg : X86Register) (imm : Int) (size : Nat)
    (address : Nat) : List PcodeOp × X86Decoder :=
  let reg_vn := reg.to_varnode size
  let imm_vn := Varnode.constant (toU64 imm) size
  let (temp, d) := d.next_unique size
  (PcodeOp.binary OpCode.IntAnd temp reg_vn imm_vn address
     :: update_flags_logical temp address, d)

/-- The op list writes ZF and SF from `result` and writes neither CF nor
OF (the arithmetic flag contract). -/
def flagsArithOk (ops : List PcodeOp) (result : Varnode) (address : Nat) : Prop :=
  PcodeOp.binary OpCode.IntEqual zf_varnode result (Varnode.constant 0 result.size) address ∈ ops
  ∧ PcodeOp.binary OpCode.IntSLess sf_varnode result (Varnode.constant 0 result.size) address ∈ ops
  ∧ ∀ op ∈ ops, op.output ≠ some cf_varnode ∧ op.output ≠ some of_varnode

/-- The op list writes ZF and SF from `result` and writes constant 0 to
CF and OF (the logical flag contract). -/
def flagsLogicalOk (ops : List PcodeOp) (result : Varnode) (address : Nat) : Prop :=
  PcodeOp.binary OpCode.IntEqual zf_varnode result (Varnode.constant 0 result.size) address ∈ ops
  ∧ PcodeOp.binary OpCode.IntSLess sf_varnode result (Varnode.constant 0 result.size) address ∈ ops
  ∧ PcodeOp.unary OpCode.Copy cf_varnode (Varnode.constant 0 1) address ∈ ops
  ∧ PcodeOp.unary OpCode.Copy of_varnode (Varnode.constant 0 1) address ∈ ops

/-- The op list writes no flag Varnode at all. -/
def writesNoFlags (ops : List PcodeOp) : Prop :=
  ∀ op ∈ ops, op.output ≠ some zf_varnode ∧ op.output ≠ some sf_varnode
    ∧ op.output ≠ some cf_varnode ∧ op.output ≠ some of_varnode

/-- A register Varnode is never a unique-space (flag) Varnode. -/
theorem reg_out_ne_unique (r : X86Register) (s off sz : Nat) :
    (some (r.to_varnode s) : Option Varnode) ≠ some (Varnode.unique off sz) := by
  intro h
  have h3 : (r.to_varnode s).space = (Varnode.unique off sz).space :=
    congrArg Varnode.space (Option.some.inj h)
  simp [X86Register.to_varnode, Varnode.register, Varnode.unique, Varnode.new] at h3

/-- Prepending a non-flag-writing op to the arithmetic flag update meets
the arithmetic flag contract. -/
theorem flagsArithOk_cons (op0 : PcodeOp) (res : Varnode) (addr : Nat)
    (h1 : op0.output ≠ some cf_varnode) (h2 : op0.output ≠ some of_varnode) :
    flagsArithOk (op0 :: update_flags_arithmetic res addr) res addr := by
  refine ⟨?_, ?_, ?_⟩
  · simp [update_flags_arithmetic]
  · simp [update_flags_arithmetic]
  · intro op hop
    rcases List.mem_cons.mp hop with h | h
    · subst h; exact ⟨h1, h2⟩
    · simp only [update_flags_arithmetic, List.mem_cons, List.mem_singleton] at h
      rcases h with h | h | h
      · subst h
        exact ⟨by simp [PcodeOp.binary, PcodeOp.new]; decide,
               by simp [PcodeOp.binary, PcodeOp.new]; decide⟩
      · subst h
        exact ⟨by simp [PcodeOp.binary, PcodeOp.new]; decide,
               by simp [PcodeOp.binary, PcodeOp.new]; decide⟩
      · cases h

/-- Prepending any op to the logical flag update meets the logical flag
contract. -/
theorem flagsLogicalOk_cons (op0 : PcodeOp) (res : Varnode) (addr : Nat) :
    flagsLogicalOk (op0 :: update_flags_logical res addr) res addr := by
  refine ⟨?_, ?_, ?_, ?_⟩ <;> simp [update_flags_logical]

/-- C7 counterexample: the memory form of inc emits no flag writes at
all (its ops are Load, IntAdd, Store), refuting the claim that every
supported arithmetic instruction writes ZF and SF. -/
theorem C7_counterexample :
    ((decode_inc_mem X86Decoder.new (Varnode.unique 200 8) 4 100).1.all
      (fun op => (op.output != some zf_varnode) && (op.output != some sf_varnode))) = true := by
  decide

/-- C7 (amended): the register forms of add, sub, inc, dec, neg write
ZF and SF and write neither CF nor OF; the memory forms of inc and dec
write no flags at all (the source omits their flag update); the logical
instructions and, or, xor, test write ZF and SF and clear CF and OF. -/
theorem C7_flag_updates :
    (∀ dest src size addr, flagsArithOk (decode_add dest src size addr) (dest.to_varnode size) addr)
    ∧ (∀ dest imm size addr, flagsArithOk (decode_add_imm dest imm size addr) (dest.to_varnode size) addr)
    ∧ (∀ dest src size addr, flagsArithOk (decode_sub dest src size addr) (dest.to_varnode size) addr)
    ∧ (∀ dest imm size addr, flagsArithOk (decode_sub_imm dest imm size addr) (dest.to_varnode size) addr)
    ∧ (∀ reg size addr, flagsArithOk (decode_inc reg size addr) (reg.to_varnode size) addr)
    ∧ (∀ reg size addr, flagsArithOk (decode_dec reg size addr) (reg.to_varnode size) addr)
    ∧ (∀ reg size addr, flagsArithOk (decode_neg reg size addr) (reg.to_varnode size) addr)
    ∧ (∀ d mem size addr, 11 < d.unique_counter →
         writesNoFlags (decode_inc_mem d mem size addr).1)
    ∧ (∀ d mem size addr, 11 < d.unique_counter →
         writesNoFlags (decode_dec_mem d mem size addr).1)
    ∧ (∀ dest src size addr, flagsLogicalOk (decode_and dest src size addr) (dest.to_varnode size) addr)
    ∧ (∀ dest imm size addr, flagsLogicalOk (decode_and_imm dest imm size addr) (dest.to_varnode size) addr)
    ∧ (∀ dest src size addr, flagsLogicalOk (decode_or dest src size addr) (dest.to_varnode size) addr)
    ∧ (∀ dest imm size addr, flagsLogicalOk (decode_or_imm dest imm size addr) (dest.to_varnode size) addr)
    ∧ (∀ dest src size addr, flagsLogicalOk (decode_xor dest src size addr) (dest.to_varnode size) addr)
    ∧ (∀ dest imm size addr, flagsLogicalOk (decode_xor_imm dest imm size addr) (dest.to_varnode size) addr)
    ∧ (∀ d lhs rhs size addr, flagsLogicalOk (decode_test d lhs rhs size addr).1
         (Varnode.unique d.unique_counter size) addr)
    ∧ (∀ d reg imm size addr, flagsLogicalOk (decode_test_imm d reg imm size addr).1
         (Varnode.unique d.unique_counter size) addr) := by
  have hmem : ∀ (d : X86Decoder) (mem : Varnode) (size addr : Nat), 11 < d.unique_counter →
      writesNoFlags
        [PcodeOp.unary OpCode.Load (Varnode.unique d.unique_counter size) mem addr,
         PcodeOp.binary OpCode.IntAdd (Varnode.unique (d.unique_counter + size) size)
           (Varnode.unique d.unique_counter size) (Varnode.constant 1 size) addr,
         PcodeOp.no_output OpCode.Store [mem, Varnode.unique (d.unique_counter + size) size] addr]
      ∧ writesNoFlags
        [PcodeOp.unary OpCode.Load (Varnode.unique d.unique_counter size) mem addr,
         PcodeOp.binary OpCode.IntSub (Varnode.unique (d.unique_counter + size) size)
           (Varnode.unique d.unique_counter size) (Varnode.constant 1 size) addr,
         PcodeOp.no_output OpCode.Store [mem, Varnode.unique (d.unique_counter + size) size] addr] := by
    intro d mem size addr hgt
    have hne1 : ∀ sz, (some (Varnode.unique d.unique_counter sz) : Option Varnode)
        ≠ some (Varnode.unique 6 1) ∧
        (some (Varnode.unique d.unique_counter sz) : Option Varnode) ≠ some (Varnode.unique 7 1) ∧
        (some (Varnode.unique d.unique_counter sz) : Option Varnode) ≠ some (Varnode.unique 0 1) ∧
        (some (Varnode.unique d.unique_counter sz) : Option Varnode) ≠ some (Varnode.unique 11 1) := by
      intro sz
      refine ⟨?_, ?_, ?_, ?_⟩ <;>
        · intro h
          have := congrArg Varnode.offset (Option.some.inj h)
          simp [Varnode.unique, Varnode.new] at this
          omega
    have hne2 : ∀ sz, (some (Varnode.unique (d.unique_counter + size) sz) : Option Varnode)
        ≠ some (Varnode.unique 6 1) ∧
        (some (Varnode.unique (d.unique_counter + size) sz) : Option Varnode) ≠ some (Varnode.unique 7 1) ∧
        (some (Varnode.unique (d.unique_counter + size) sz) : Option Varnode) ≠ some (Varnode.unique 0 1) ∧
        (some (Varnode.unique (d.unique_counter + size) sz) : Option Varnode) ≠ some (Varnode.unique 11 1) := by
      intro sz
      refine ⟨?_, ?_, ?_, ?_⟩ <;>
        · intro h
          have := congrArg Varnode.offset (Option.some.inj h)
          simp [Varnode.unique, Varnode.new] at this
          omega
    constructor <;>
      · intro op hop
        simp only [List.mem_cons, List.mem_singleton] at hop
        rcases hop with h | h | h | h
        · subst h
          exact ⟨(hne1 size).1, (hne1 size).2.1, (hne1 size).2.2.1, (hne1 size).2.2.2⟩
        · subst h
          exact ⟨(hne2 size).1, (hne2 size).2.1, (hne2 size).2.2.1, (hne2 size).2.2.2⟩
        · subst h
          exact ⟨by simp [PcodeOp.no_output, PcodeOp.new],
                 by simp [PcodeOp.no_output, PcodeOp.new],
                 by simp [PcodeOp.no_output, PcodeOp.new],
                 by simp [PcodeOp.no_output, PcodeOp.new]⟩
        · cases h
  refine ⟨?_, ?_, ?_, ?_, ?_, ?_, ?_, ?_, ?_, ?_, ?_, ?_, ?_, ?_, ?_, ?_, ?_⟩
  · intro dest src size addr
    exact flagsArithOk_cons _ _ _ (reg_out_ne_unique dest size flagCF 1)
      (reg_out_ne_unique dest size flagOF 1)
  · intro dest imm size addr
    exact flagsArithOk_cons _ _ _ (reg_out_ne_unique dest size flagCF 1)
      (reg_out_ne_unique dest size flagOF 1)
  · intro dest src size addr
    exact flagsArithOk_cons _ _ _ (reg_out_ne_unique dest size flagCF 1)
      (reg_out_ne_unique dest size flagOF 1)
  · intro dest imm size addr
    exact flagsArithOk_cons _ _ _ (reg_out_ne_unique dest size flagCF 1)
      (reg_out_ne_unique dest size flagOF 1)
  · intro reg size addr
    exact flagsArithOk_cons _ _ _ (reg_out_ne_unique reg size flagCF 1)
      (reg_out_ne_unique reg size flagOF 1)
  · intro reg size addr
    exact flagsArithOk_cons _ _ _ (reg_out_ne_unique reg size flagCF 1)
      (reg_out_ne_unique reg size flagOF 1)
  · intro reg size addr
    exact flagsArithOk_cons _ _ _ (reg_out_ne_unique reg size flagCF 1)
      (reg_out_ne_unique reg size flagOF 1)
  · intro d mem size addr hgt
    exact (hmem d mem size addr hgt).1
  · intro d mem size addr hgt
    exact (hmem d mem size addr hgt).2
  · intro dest src size addr; exact flagsLogicalOk_cons _ _ _
  · intro dest imm size addr; exact flagsLogicalOk_cons _ _ _
  · intro dest src size addr; exact flagsLogicalOk_cons _ _ _
  · intro dest imm size addr; exact flagsLogicalOk_cons _ _ _
  · intro dest src size addr; exact flagsLogicalOk_cons _ _ _
  · intro dest imm size addr; exact flagsLogicalOk_cons _ _ _
  · intro d lhs rhs size addr; exact flagsLogicalOk_cons _ _ _
  · intro d reg imm size addr; exact flagsLogicalOk_cons _ _ _

/-- C7 witness: the memory-inc conjunct applied at a fresh decoder. -/
theorem C7_witness :
    11 < X86Decoder.new.unique_counter
    ∧ writesNoFlags (decode_inc_mem X86Decoder.new (Varnode.unique 200 8) 4 100).1 :=
  ⟨by decide,
   C7_flag_updates.2.2.2.2.2.2.2.1 X86Decoder.new (Varnode.unique 200 8) 4 100 (by decide)⟩

/-- C8 counterexample: the constant built by decode_add_imm for the
immediate -1 at size 4 has offset 2^64 - 1, which is not its value
masked to 4 bytes, refuting the masked-offset invariant. -/
theorem C8_counterexample :
    (Varnode.constant (toU64 (-1)) 4).offset
      ≠ (Varnode.constant (toU64 (-1)) 4).offset % 2 ^ (8 * (Varnode.constant (toU64 (-1)) 4).size)
    ∧ (decode_add_imm X86Register.RAX (-1) 4 0).head?.map PcodeOp.inputs
      = some [X86Register.RAX.to_varnode 4, Varnode.constant (toU64 (-1)) 4] := by
  exact ⟨by decide, rfl⟩

/-- C8 (amended): Varnode.constant stores the raw value verbatim in the
offset field with no masking and no size restriction; the lifter passes
the two's-complement u64 image of the immediate, so the masked-offset
invariant holds exactly when the value already fits the size. -/
theorem C8_constant_unmasked :
    (∀ value size, Varnode.constant value size
        = { space := AddressSpace.Const, offset := value, size := size })
    ∧ (∀ dest imm size addr, (decode_add_imm dest imm size addr).head?.map PcodeOp.inputs
        = some [dest.to_varnode size, Varnode.constant (toU64 imm) size])
    ∧ (∀ value size, value < 2 ^ (8 * size) →
        (Varnode.constant value size).offset = value % 2 ^ (8 * size)) :=
  ⟨fun _ _ => rfl, fun _ _ _ _ => rfl,
   fun _ _ h => (Nat.mod_eq_of_lt h).symm⟩

/-- C8 witness: the masked-offset conjunct at value 42, size 4. -/
theorem C8_witness :
    42 < 2 ^ (8 * 4) ∧ (Varnode.constant 42 4).offset = 42 % 2 ^ (8 * 4) :=
  ⟨by norm_num, C8_constant_unmasked.2.2 42 4 (by norm_num)⟩

/-! ## NZ-mask analyzer (nzmask.rs) -/

/-- The analyzer's mask table `HashMap<VarnodeKey, u64>`; the key carries
exactly the Varnode's (space, offset, size), so the map is modeled as a
function on Varnodes. -/
abbrev NZMasks := Varnode → Option Nat

/-- Mirror of `NZMaskAnalyzer::calc_mask`. -/
def calc_mask (size : Nat) : Nat :=
  if 8 ≤ size then 2 ^ 64 - 1 else 2 ^ (size * 8) - 1

/-- Mirror of `NZMaskAnalyzer::get_nzmask`: the stored mask, else the
masked value for constants, else the conservative all-ones mask. -/
def get_nzmask (m : NZMasks) (vn : Varnode) : Nat :=
  match m vn with
  | some k => k
  | none =>
      if vn.space = AddressSpace.Const then vn.offset &&& calc_mask vn.size
      else calc_mask vn.size

/-- Mirror of `NZMaskAnalyzer::set_nzmask`: store the mask bounded to the
Varnode's size. -/
def set_nzmask (m : NZMasks) (vn : Varnode) (mask : Nat) : NZMasks :=
  fun v => if v = vn then some (mask &&& calc_mask vn.size) else m v

/-- Output size with the Rust `op.output...unwrap_or(d)` default. -/
def outSizeD (op : PcodeOp) (d : Nat) : Nat :=
  match op.output with
  | some v => v.size
  | none => d

/-- Mirror of `NZMaskAnalyzer::compute_op_nzmask`. A Rust index
`op.inputs[k]` on a too-short list panics; those shapes are modeled by
the final catch-all returning none. u64 shift-left is modeled as
multiplication mod 2^64 (exact for shift amounts below 64). -/
def compute_op_nzmask (m : NZMasks) (op : PcodeOp) : Option Nat :=
  match op.opcode with
  | OpCode.Copy =>
      match op.inputs with
      | i0 :: _ => some (get_nzmask m i0)
      | _ => none
  | OpCode.IntAnd =>
      match op.inputs with
      | i0 :: i1 :: _ => some (get_nzmask m i0 &&& get_nzmask m i1)
      | _ => none
  | OpCode.IntOr =>
      match op.inputs with
      | i0 :: i1 :: _ => some (get_nzmask m i0 ||| get_nzmask m i1)
      | _ => none
  | OpCode.IntXor =>
      match op.inputs with
      | i0 :: i1 :: _ => some (get_nzmask m i0 ||| get_nzmask m i1)
      | _ => none
  | OpCode.IntNegate =>
      match op.inputs with
      | i0 :: _ => some (get_nzmask m i0)
      | _ => none
  | OpCode.IntLeft =>
      match op.inputs with
      | i0 :: i1 :: _ =>
          if i1.space = AddressSpace.Const then
            some (((get_nzmask m i0 <<< i1.offset) % 2 ^ 64) &&& calc_mask (outSizeD op 8))
          else none
      | _ => none
  | OpCode.IntRight =>
      match op.inputs with
      | i0 :: i1 :: _ =>
          if i1.space = AddressSpace.Const then some (get_nzmask m i0 >>> i1.offset) else none
      | _ => none
  | OpCode.IntSRight =>
      match op.inputs with
      | i0 :: i1 :: _ =>
          if i1.space = AddressSpace.Const then some (get_nzmask m i0 >>> i1.offset) else none
      | _ => none
  | OpCode.IntZExt =>
      match op.inputs with
      | i0 :: _ => some (get_nzmask m i0)
      | _ => none
  | OpCode.IntSExt =>
      match op.inputs with
      | i0 :: _ =>
          if get_nzmask m i0 &&& 2 ^ (i0.size * 8 - 1) ≠ 0 then
            some (calc_mask (outSizeD op 8))
          else some (get_nzmask m i0)
      | _ => none
  | OpCode.SubPiece =>
      match op.inputs with
      | i0 :: i1 :: _ =>
          if i1.space = AddressSpace.Const then
            some ((get_nzmask m i0 >>> (i1.offset * 8)) &&& calc_mask (outSizeD op 4))
          else none
      | _ => none
  | OpCode.IntAdd => some (calc_mask (outSizeD op 8))
  | OpCode.IntSub => some (calc_mask (outSizeD op 8))
  | OpCode.IntMult => some (calc_mask (outSizeD op 8))
  | OpCode.IntEqual => some 1
  | OpCode.IntNotEqual => some 1
  | OpCode.IntLess => some 1
  | OpCode.IntLessEqual => some 1
  | OpCode.IntSLess => some 1
  | OpCode.IntSLessEqual => some 1
  | OpCode.BoolNegate => some 1
  | OpCode.BoolAnd => some 1
  | OpCode.BoolOr => some 1
  | OpCode.BoolXor => some 1
  | _ => none

/-! ## P-code value semantics

Modelled from the spec: section 4.2 fixes the semantic contract per
opcode (e.g. int-add: output = (input0 + input1) mod 2^(8*output.size);
int-sless: signed comparison producing a 1-bit result) and section 3
states that a constant Varnode's offset IS its value; the repository has
no P-code evaluator of its own, so the evaluation function below is
built from those words. -/

/-- Modelled from the spec: the value an execution environment assigns
to a Varnode; constants carry their offset as the value (spec section 3),
other Varnodes read the environment. -/
def valueOf (env : Varnode → Nat) (vn : Varnode) : Nat :=
  if vn.space = AddressSpace.Const then vn.offset else env vn

/-- Modelled from the spec: two's-complement reading of an unsigned
value of bit width w. -/
def signedVal (w : Nat) (x : Nat) : Int :=
  if x.testBit (w - 1) then (x : Int) - 2 ^ w else (x : Int)

/-- Modelled from the spec: the value computed by one P-code op under an
environment (section 4.2 semantics), none for opcodes the spec leaves
without a defined value rule or for ops without an output. -/
def evalOp (env : Varnode → Nat) (op : PcodeOp) : Option Nat :=
  match op.output with
  | none => none
  | some out =>
    let sz8 := 8 * out.size
    match op.opcode with
    | OpCode.Copy =>
        match op.inputs with
        | i0 :: _ => some (valueOf env i0 % 2 ^ sz8)
        | _ => none
    | OpCode.IntAnd =>
        match op.inputs with
        | i0 :: i1 :: _ => some ((valueOf env i0 &&& valueOf env i1) % 2 ^ sz8)
        | _ => none
    | OpCode.IntOr =>
        match op.inputs with
        | i0 :: i1 :: _ => some ((valueOf env i0 ||| valueOf env i1) % 2 ^ sz8)
        | _ => none
    | OpCode.IntXor =>
        match op.inputs with
        | i0 :: i1 :: _ => some ((valueOf env i0 ^^^ valueOf env i1) % 2 ^ sz8)
        | _ => none
    | OpCode.IntNegate =>
        match op.inputs with
        | i0 :: _ => some ((valueOf env i0 % 2 ^ sz8) ^^^ (2 ^ sz8 - 1))
        | _ => none
    | OpCode.IntLeft =>
        match op.inputs with
        | i0 :: i1 :: _ => some ((valueOf env i0 <<< valueOf env i1) % 2 ^ sz8)
        | _ => none
    | OpCode.IntRight =>
        match op.inputs with
        | i0 :: i1 :: _ => some ((valueOf env i0 >>> valueOf env i1) % 2 ^ sz8)
        | _ => none
    | OpCode.IntSRight =>
        match op.inputs with
        | i0 :: i1 :: _ =>
            some ((((signedVal (8 * i0.size) (valueOf env i0 % 2 ^ (8 * i0.size))).fdiv
              (2 ^ valueOf env i1)) % (2 ^ sz8 : Int)).toNat)
        | _ => none
    | OpCode.IntZExt =>
        match op.inputs with
        | i0 :: _ => some (valueOf env i0 % 2 ^ sz8)
        | _ => none
    | OpCode.IntSExt =>
        match op.inputs with
        | i0 :: _ =>
            if (valueOf env i0 % 2 ^ (8 * i0.size)).testBit (8 * i0.size - 1) then
              some ((valueOf env i0 % 2 ^ (8 * i0.size) + (2 ^ sz8 - 2 ^ (8 * i0.size))) % 2 ^ sz8)
            else some (valueOf env i0 % 2 ^ (8 * i0.size))
        | _ => none
    | OpCode.SubPiece =>
        match op.inputs with
        | i0 :: i1 :: _ => some ((valueOf env i0 >>> (8 * valueOf env i1)) % 2 ^ sz8)
        | _ => none
    | OpCode.IntAdd =>
        match op.inputs with
        | i0 :: i1 :: _ => some ((valueOf env i0 + valueOf env i1) % 2 ^ sz8)
        | _ => none
    | OpCode.IntSub =>
        match op.inputs with
        | i0 :: i1 :: _ =>
            some ((((valueOf env i0 : Int) - valueOf env i1) % (2 ^ sz8 : Int)).toNat)
        | _ => none
    | OpCode.IntMult =>
        match op.inputs with
        | i0 :: i1 :: _ => some ((valueOf env i0 * valueOf env i1) % 2 ^ sz8)
        | _ => none
    | OpCode.IntEqual =>
        match op.inputs with
        | i0 :: i1 :: _ => some (if valueOf env i0 = valueOf env i1 then 1 else 0)
        | _ => none
    | OpCode.IntNotEqual =>
        match op.inputs with
        | i0 :: i1 :: _ => some (if valueOf env i0 = valueOf env i1 then 0 else 1)
        | _ => none
    | OpCode.IntLess =>
        match op.inputs with
        | i0 :: i1 :: _ => some (if valueOf env i0 < valueOf env i1 then 1 else 0)
        | _ => none
    | OpCode.IntLessEqual =>
        match op.inputs with
        | i0 :: i1 :: _ => some (if valueOf env i0 ≤ valueOf env i1 then 1 else 0)
        | _ => none
    | OpCode.IntSLess =>
        match op.inputs with
        | i0 :: i1 :: _ =>
            some (if signedVal (8 * i0.size) (valueOf env i0 % 2 ^ (8 * i0.size))
                < signedVal (8 * i0.size) (valueOf env i1 % 2 ^ (8 * i0.size)) then 1 else 0)
        | _ => none
    | OpCode.IntSLessEqual =>
        match op.inputs with
        | i0 :: i1 :: _ =>
            some (if signedVal (8 * i0.size) (valueOf env i0 % 2 ^ (8 * i0.size))
                ≤ signedVal (8 * i0.size) (valueOf env i1 % 2 ^ (8 * i0.size)) then 1 else 0)
        | _ => none
    | OpCode.BoolNegate =>
        match op.inputs with
        | i0 :: _ => some (if valueOf env i0 = 0 then 1 else 0)
        | _ => none
    | OpCode.BoolAnd =>
        match op.inputs with
        | i0 :: i1 :: _ => some (if valueOf env i0 ≠ 0 ∧ valueOf env i1 ≠ 0 then 1 else 0)
        | _ => none
    | OpCode.BoolOr =>
        match op.inputs with
        | i0 :: i1 :: _ => some (if valueOf env i0 ≠ 0 ∨ valueOf env i1 ≠ 0 then 1 else 0)
        | _ => none
    | OpCode.BoolXor =>
        match op.inputs with
        | i0 :: i1 :: _ => some (if (valueOf env i0 ≠ 0) ↔ (valueOf env i1 ≠ 0) then 0 else 1)
        | _ => none
    | _ => none

/-! Bit-subset helper lemmas. -/

/-- If every set bit of v is set in m, then v AND m is v. -/
theorem land_self_of_sub {v m : Nat}
    (h : ∀ i, v.testBit i = true → m.testBit i = true) : v &&& m = v := by
  apply Nat.eq_of_testBit_eq
  intro i
  rw [Nat.testBit_land]
  cases hv : v.testBit i with
  | false => simp
  | true => simp [h i hv]

/-- Converse reading of `land_self_of_sub`. -/
theorem sub_of_land_self {v m : Nat} (h : v &&& m = v) :
    ∀ i, v.testBit i = true → m.testBit i = true := by
  intro i hv
  have h2 := congrArg (fun x => Nat.testBit x i) h
  simp only [Nat.testBit_land, hv, Bool.true_and] at h2
  exact h2

/-- Bits of a value below a power of two lie below the exponent. -/
theorem testBit_high_false {v k i : Nat} (hv : v < 2 ^ k) (hi : k ≤ i) :
    v.testBit i = false :=
  Nat.testBit_eq_false_of_lt (lt_of_lt_of_le hv (Nat.pow_le_pow_right (by norm_num) hi))

/-- For sizes up to 8, calc_mask is the all-ones mask of 8*size bits. -/
theorem calc_mask_le8 {s : Nat} (h : s ≤ 8) : calc_mask s = 2 ^ (8 * s) - 1 := by
  unfold calc_mask
  by_cases h8 : 8 ≤ s
  · have : s = 8 := le_antisymm h h8
    subst this
    norm_num
  · rw [if_neg h8, Nat.mul_comm]

/-- Reducing mod a power of two only clears bits. -/
theorem sub_mod_two_pow {x k : Nat} :
    ∀ i, (x % 2 ^ k).testBit i = true → x.testBit i = true := by
  intro i h
  rw [Nat.testBit_mod_two_pow] at h
  exact ((Bool.and_eq_true _ _).mp h).2

/-- Bits of a value below 2^(8s) lie inside calc_mask s when s ≤ 8. -/
theorem sub_cmask_of_lt {v s : Nat} (hs : s ≤ 8) (hv : v < 2 ^ (8 * s)) :
    ∀ i, v.testBit i = true → (calc_mask s).testBit i = true := by
  intro i h
  have hi : i < 8 * s := by
    by_contra hge
    rw [testBit_high_false hv (le_of_not_lt hge)] at h
    cases h
  rw [calc_mask_le8 hs, Nat.testBit_two_pow_sub_one]
  simpa using hi

/-- A value whose set bits lie in calc_mask s is below 2^(8s) for s ≤ 8. -/
theorem lt_of_sub_cmask {v s : Nat} (hs : s ≤ 8) (h : v &&& calc_mask s = v) :
    v < 2 ^ (8 * s) := by
  have h1 : v ≤ calc_mask s := h ▸ Nat.and_le_right
  have h2 : calc_mask s < 2 ^ (8 * s) := by
    rw [calc_mask_le8 hs]
    exact Nat.sub_lt (Nat.pos_pow_of_pos _ (by norm_num)) (by norm_num)
  omega

/-- State for the bitwise-negate unsoundness instance: the analyzer has
recorded mask 0 for the 1-byte register at offset 0. -/
def c3NegState : NZMasks := set_nzmask (fun _ => none) (Varnode.register 0 1) 0

/-- A bitwise-negate op over that register. -/
def c3NegOp : PcodeOp :=
  PcodeOp.unary OpCode.IntNegate (Varnode.unique 100 1) (Varnode.register 0 1) 0

/-- Environment assigning 0 everywhere (consistent with mask 0). -/
def c3NegEnv : Varnode → Nat := fun _ => 0

/-- State for the arithmetic-shift-right unsoundness instance: the
analyzer has recorded mask 0x80 for the 1-byte register at offset 0. -/
def c3SshrState : NZMasks := set_nzmask (fun _ => none) (Varnode.register 0 1) 128

/-- An arithmetic shift right by constant 1 over that register. -/
def c3SshrOp : PcodeOp :=
  PcodeOp.binary OpCode.IntSRight (Varnode.unique 101 1)
    (Varnode.register 0 1) (Varnode.constant 1 1) 0

/-- Environment assigning 0x80 everywhere (consistent with mask 0x80). -/
def c3SshrEnv : Varnode → Nat := fun _ => 128

/-- C3 counterexample: for bitwise negate the rule keeps the input mask,
but negating an always-zero byte yields 0xFF, whose bits are not inside
mask 0; for arithmetic shift right the rule shifts the mask logically,
but shifting 0x80 (signed -128) right arithmetically yields 0xC0, whose
sign-propagated bit is outside mask 0x40. Both input assignments lie
within the inputs' NZ-masks, so the claim fails as stated. -/
theorem C3_counterexample :
    ((∀ vn ∈ c3NegOp.inputs, valueOf c3NegEnv vn &&& get_nzmask c3NegState vn = valueOf c3NegEnv vn)
      ∧ compute_op_nzmask c3NegState c3NegOp = some 0
      ∧ evalOp c3NegEnv c3NegOp = some 255
      ∧ ¬ (255 &&& 0 = 255))
    ∧ ((∀ vn ∈ c3SshrOp.inputs, valueOf c3SshrEnv vn &&& get_nzmask c3SshrState vn = valueOf c3SshrEnv vn)
      ∧ compute_op_nzmask c3SshrState c3SshrOp = some 64
      ∧ evalOp c3SshrEnv c3SshrOp = some 192
      ∧ ¬ (192 &&& 64 = 192)) := by
  decide

/-- C3 (amended): for every op whose opcode has a defined NZ-mask rule
other than bitwise negate and arithmetic shift right (copy, and, or,
xor, left/logical-right shift by constant, zext, sext, sub-piece with
constant offset, add/sub/mult, comparisons, boolean ops), and for every
assignment of input values whose set bits lie within the inputs'
NZ-masks, the set bits of the computed output value are a subset of the
mask computed by compute_op_nzmask. -/
theorem C3_nzmask_sound
    (m : NZMasks) (op : PcodeOp) (env : Varnode → Nat) (out : Varnode) (mask v : Nat)
    (hout : op.output = some out)
    (houtsz1 : 1 ≤ out.size) (houtsz8 : out.size ≤ 8)
    (hszs : ∀ vn ∈ op.inputs, 1 ≤ vn.size ∧ vn.size ≤ 8)
    (hbound : ∀ vn ∈ op.inputs, get_nzmask m vn &&& calc_mask vn.size = get_nzmask m vn)
    (hcons : ∀ vn ∈ op.inputs, valueOf env vn &&& get_nzmask m vn = valueOf env vn)
    (hnotneg : op.opcode ≠ OpCode.IntNegate)
    (hnotsshr : op.opcode ≠ OpCode.IntSRight)
    (hsext : op.opcode = OpCode.IntSExt → ∀ i0, op.inputs.head? = some i0 → i0.size ≤ out.size)
    (hshift : (op.opcode = OpCode.IntLeft ∨ op.opcode = OpCode.IntRight) →
      ∀ i1, op.inputs.get? 1 = some i1 → i1.offset < 64)
    (hmask : compute_op_nzmask m op = some mask)
    (hv : evalOp env op = some v) :
    v &&& mask = v := by
  rcases op with ⟨opc, outop, inputs, addr⟩
  simp only at hout
  subst hout
  have bitcons : ∀ vn ∈ inputs, ∀ i,
      (valueOf env vn).testBit i = true → (get_nzmask m vn).testBit i = true := by
    intro vn hvn
    exact sub_of_land_self (hcons vn hvn)
  have hsz64 : 8 * out.size ≤ 64 := by omega
  cases opc
  case Copy =>
    cases inputs with
    | nil => exact absurd hmask (by simp [compute_op_nzmask])
    | cons i0 rest =>
      simp only [compute_op_nzmask] at hmask
      simp only [evalOp] at hv
      obtain rfl := Option.some.inj hmask
      obtain rfl := Option.some.inj hv
      exact land_self_of_sub fun i hb =>
        bitcons i0 (List.mem_cons_self _ _) i (sub_mod_two_pow i hb)
  case IntZExt =>
    cases inputs with
    | nil => exact absurd hmask (by simp [compute_op_nzmask])
    | cons i0 rest =>
      simp only [compute_op_nzmask] at hmask
      simp only [evalOp] at hv
      obtain rfl := Option.some.inj hmask
      obtain rfl := Option.some.inj hv
      exact land_self_of_sub fun i hb =>
        bitcons i0 (List.mem_cons_self _ _) i (sub_mod_two_pow i hb)
  case IntAnd =>
    match inputs, hmask, hv with
    | i0 :: i1 :: rest, hmask, hv =>
      simp only [compute_op_nzmask] at hmask
      simp only [evalOp] at hv
      obtain rfl := Option.some.inj hmask
      obtain rfl := Option.some.inj hv
      apply land_self_of_sub
      intro i hb
      have hb2 := sub_mod_two_pow i hb
      rw [Nat.testBit_land] at hb2 ⊢
      rcases Bool.and_eq_true _ _ |>.mp hb2 with ⟨h0, h1⟩
      rw [bitcons i0 (by simp) i h0, bitcons i1 (by simp) i h1]
      rfl
  case IntOr =>
    match inputs, hmask, hv with
    | i0 :: i1 :: rest, hmask, hv =>
      simp only [compute_op_nzmask] at hmask
      simp only [evalOp] at hv
      obtain rfl := Option.some.inj hmask
      obtain rfl := Option.some.inj hv
      apply land_self_of_sub
      intro i hb
      have hb2 := sub_mod_two_pow i hb
      rw [Nat.testBit_lor] at hb2 ⊢
      rcases Bool.or_eq_true _ _ |>.mp hb2 with h0 | h1
      · rw [bitcons i0 (by simp) i h0]; rfl
      · rw [bitcons i1 (by simp) i h1]; simp
  case IntXor =>
    match inputs, hmask, hv with
    | i0 :: i1 :: rest, hmask, hv =>
      simp only [compute_op_nzmask] at hmask
      simp only [evalOp] at hv
      obtain rfl := Option.some.inj hmask
      obtain rfl := Option.some.inj hv
      apply land_self_of_sub
      intro i hb
      have hb2 := sub_mod_two_pow i hb
      rw [Nat.testBit_xor] at hb2
      rw [Nat.testBit_lor]
      cases h0 : (valueOf env i0).testBit i with
      | true => rw [bitcons i0 (by simp) i h0]; rfl
      | false =>
        cases h1 : (valueOf env i1).testBit i with
        | true => rw [bitcons i1 (by simp) i h1]; simp
        | false => rw [h0, h1] at hb2; cases hb2
  case IntNegate => exact absurd rfl hnotneg
  case IntSRight => exact absurd rfl hnotsshr
  case IntAdd =>
    match inputs, hmask, hv with
    | i0 :: i1 :: rest, hmask, hv =>
      simp only [compute_op_nzmask, outSizeD] at hmask
      simp only [evalOp] at hv
      obtain rfl := Option.some.inj hmask
      obtain rfl := Option.some.inj hv
      exact land_self_of_sub (sub_cmask_of_lt houtsz8
        (Nat.mod_lt _ (Nat.pos_pow_of_pos _ (by norm_num))))
  case IntMult =>
    match inputs, hmask, hv with
    | i0 :: i1 :: rest, hmask, hv =>
      simp only [compute_op_nzmask, outSizeD] at hmask
      simp only [evalOp] at hv
      obtain rfl := Option.some.inj hmask
      obtain rfl := Option.some.inj hv
      exact land_self_of_sub (sub_cmask_of_lt houtsz8
        (Nat.mod_lt _ (Nat.pos_pow_of_pos _ (by norm_num))))
  case IntSub =>
    match inputs, hmask, hv with
    | i0 :: i1 :: rest, hmask, hv =>
      simp only [compute_op_nzmask, outSizeD] at hmask
      simp only [evalOp] at hv
      obtain rfl := Option.some.inj hmask
      obtain rfl := Option.some.inj hv
      apply land_self_of_sub
      apply sub_cmask_of_lt houtsz8
      have hpos : (0 : Int) < 2 ^ (8 * out.size) := by positivity
      have hlt := Int.emod_lt_of_pos ((valueOf env i0 : Int) - valueOf env i1) hpos
      have hnn := Int.emod_nonneg ((valueOf env i0 : Int) - valueOf env i1) (ne_of_gt hpos)
      exact (Int.toNat_lt hnn).mpr (by exact_mod_cast hlt)
  case IntEqual =>
    match inputs, hmask, hv with
    | i0 :: i1 :: rest, hmask, hv =>
      simp only [compute_op_nzmask] at hmask
      simp only [evalOp] at hv
      obtain rfl := Option.some.inj hmask
      split at hv <;> (obtain rfl := Option.some.inj hv; decide)
  case IntNotEqual =>
    match inputs, hmask, hv with
    | i0 :: i1 :: rest, hmask, hv =>
      simp only [compute_op_nzmask] at hmask
      simp only [evalOp] at hv
      obtain rfl := Option.some.inj hmask
      split at hv <;> (obtain rfl := Option.some.inj hv; decide)
  case IntLess =>
    match inputs, hmask, hv with
    | i0 :: i1 :: rest, hmask, hv =>
      simp only [compute_op_nzmask] at hmask
      simp only [evalOp] at hv
      obtain rfl := Option.some.inj hmask
      split at hv <;> (obtain rfl := Option.some.inj hv; decide)
  case IntLessEqual =>
    match inputs, hmask, hv with
    | i0 :: i1 :: rest, hmask, hv =>
      simp only [compute_op_nzmask] at hmask
      simp only [evalOp] at hv
      obtain rfl := Option.some.inj hmask
      split at hv <;> (obtain rfl := Option.some.inj hv; decide)
  case IntSLess =>
    match inputs, hmask, hv with
    | i0 :: i1 :: rest, hmask, hv =>
      simp only [compute_op_nzmask] at hmask
      simp only [evalOp] at hv
      obtain rfl := Option.some.inj hmask
      split at hv <;> (obtain rfl := Option.some.inj hv; decide)
  case IntSLessEqual =>
    match inputs, hmask, hv with
    | i0 :: i1 :: rest, hmask, hv =>
      simp only [compute_op_nzmask] at hmask
      simp only [evalOp] at hv
      obtain rfl := Option.some.inj hmask
      split at hv <;> (obtain rfl := Option.some.inj hv; decide)
  case BoolNegate =>
    match inputs, hmask, hv with
    | i0 :: rest, hmask, hv =>
      simp only [compute_op_nzmask] at hmask
      simp only [evalOp] at hv
      obtain rfl := Option.some.inj hmask
      split at hv <;> (obtain rfl := Option.some.inj hv; decide)
  case BoolAnd =>
    match inputs, hmask, hv with
    | i0 :: i1 :: rest, hmask, hv =>
      simp only [compute_op_nzmask] at hmask
      simp only [evalOp] at hv
      obtain rfl := Option.some.inj hmask
      split at hv <;> (obtain rfl := Option.some.inj hv; decide)
  case BoolOr =>
    match inputs, hmask, hv with
    | i0 :: i1 :: rest, hmask, hv =>
      simp only [compute_op_nzmask] at hmask
      simp only [evalOp] at hv
      obtain rfl := Option.some.inj hmask
      split at hv <;> (obtain rfl := Option.some.inj hv; decide)
  case BoolXor =>
    match inputs, hmask, hv with
    | i0 :: i1 :: rest, hmask, hv =>
      simp only [compute_op_nzmask] at hmask
      simp only [evalOp] at hv
      obtain rfl := Option.some.inj hmask
      split at hv <;> (obtain rfl := Option.some.inj hv; decide)
  case IntLeft =>
    match inputs, hmask, hv with
    | i0 :: i1 :: rest, hmask, hv =>
      simp only [compute_op_nzmask, outSizeD] at hmask
      simp only [evalOp] at hv
      split at hmask
      case isTrue hconst =>
        obtain rfl := Option.some.inj hmask
        obtain rfl := Option.some.inj hv
        have hval1 : valueOf env i1 = i1.offset := by simp [valueOf, hconst]
        apply land_self_of_sub
        intro i hb
        have hi : i < 8 * out.size := by
          rw [Nat.testBit_mod_two_pow] at hb
          have := ((Bool.and_eq_true _ _).mp hb).1
          simpa using this
        have hb2 := sub_mod_two_pow i hb
        rw [hval1, Nat.testBit_shiftLeft] at hb2
        rcases (Bool.and_eq_true _ _).mp hb2 with ⟨hle, hbit⟩
        rw [Nat.testBit_land]
        have hm0 : ((get_nzmask m i0 <<< i1.offset) % 2 ^ 64).testBit i = true := by
          rw [Nat.testBit_mod_two_pow, Nat.testBit_shiftLeft]
          rw [hle, bitcons i0 (by simp) _ hbit]
          simp
          omega
        rw [hm0]
        have hcm : (calc_mask out.size).testBit i = true := by
          rw [calc_mask_le8 houtsz8, Nat.testBit_two_pow_sub_one]
          simpa using hi
        rw [hcm]
        rfl
      case isFalse => exact Option.noConfusion hmask
  case IntRight =>
    match inputs, hmask, hv with
    | i0 :: i1 :: rest, hmask, hv =>
      simp only [compute_op_nzmask] at hmask
      simp only [evalOp] at hv
      split at hmask
      case isTrue hconst =>
        obtain rfl := Option.some.inj hmask
        obtain rfl := Option.some.inj hv
        have hval1 : valueOf env i1 = i1.offset := by simp [valueOf, hconst]
        apply land_self_of_sub
        intro i hb
        have hb2 := sub_mod_two_pow i hb
        rw [hval1, Nat.testBit_shiftRight] at hb2
        rw [Nat.testBit_shiftRight]
        exact bitcons i0 (by simp) _ hb2
      case isFalse => exact Option.noConfusion hmask
  case SubPiece =>
    match inputs, hmask, hv with
    | i0 :: i1 :: rest, hmask, hv =>
      simp only [compute_op_nzmask, outSizeD] at hmask
      simp only [evalOp] at hv
      split at hmask
      case isTrue hconst =>
        obtain rfl := Option.some.inj hmask
        obtain rfl := Option.some.inj hv
        have hval1 : valueOf env i1 = i1.offset := by simp [valueOf, hconst]
        apply land_self_of_sub
        intro i hb
        have hi : i < 8 * out.size := by
          rw [Nat.testBit_mod_two_pow] at hb
          have := ((Bool.and_eq_true _ _).mp hb).1
          simpa using this
        have hb2 := sub_mod_two_pow i hb
        rw [hval1, Nat.testBit_shiftRight] at hb2
        rw [Nat.testBit_land, Nat.testBit_shiftRight]
        have hb3 : (get_nzmask m i0).testBit (i1.offset * 8 + i) = true := by
          have := bitcons i0 (by simp) _ hb2
          rw [Nat.mul_comm 8 i1.offset] at this
          exact this
        rw [hb3]
        have hcm : (calc_mask out.size).testBit i = true := by
          rw [calc_mask_le8 houtsz8, Nat.testBit_two_pow_sub_one]
          simpa using hi
        rw [hcm]
        rfl
      case isFalse => exact Option.noConfusion hmask
  case IntSExt =>
    match inputs, hmask, hv with
    | i0 :: rest, hmask, hv =>
      simp only [compute_op_nzmask, outSizeD] at hmask
      simp only [evalOp] at hv
      have hi0sz := hszs i0 (by simp)
      have hwle : 8 * i0.size ≤ 8 * out.size := by
        have := hsext rfl i0 (by simp)
        omega
      split at hmask
      case isTrue =>
        obtain rfl := Option.some.inj hmask
        split at hv
        case isTrue =>
          obtain rfl := Option.some.inj hv
          exact land_self_of_sub (sub_cmask_of_lt houtsz8
            (Nat.mod_lt _ (Nat.pos_pow_of_pos _ (by norm_num))))
        case isFalse =>
          obtain rfl := Option.some.inj hv
          apply land_self_of_sub
          apply sub_cmask_of_lt houtsz8
          calc valueOf env i0 % 2 ^ (8 * i0.size) < 2 ^ (8 * i0.size) :=
                Nat.mod_lt _ (Nat.pos_pow_of_pos _ (by norm_num))
            _ ≤ 2 ^ (8 * out.size) := Nat.pow_le_pow_right (by norm_num) hwle
      case isFalse hzero =>
        obtain rfl := Option.some.inj hmask
        have hz : get_nzmask m i0 &&& 2 ^ (i0.size * 8 - 1) = 0 := by
          by_contra hne
          exact hzero hne
        have hm0bit : (get_nzmask m i0).testBit (8 * i0.size - 1) = false := by
          cases hb : (get_nzmask m i0).testBit (8 * i0.size - 1) with
          | false => rfl
          | true =>
            exfalso
            have h0 : (get_nzmask m i0 &&& 2 ^ (i0.size * 8 - 1)).testBit (i0.size * 8 - 1)
                = false := by
              rw [hz]
              exact Nat.zero_testBit _
            rw [Nat.testBit_land, Nat.testBit_two_pow_self, Nat.mul_comm i0.size 8, hb] at h0
            simp at h0
        have hxbit : ((valueOf env i0 % 2 ^ (8 * i0.size)).testBit (8 * i0.size - 1)) = false := by
          cases hx : (valueOf env i0 % 2 ^ (8 * i0.size)).testBit (8 * i0.size - 1) with
          | false => rfl
          | true =>
            have := bitcons i0 (by simp) _ (sub_mod_two_pow _ hx)
            rw [hm0bit] at this
            cases this
        rw [hxbit] at hv
        simp only [Bool.false_eq_true, if_false] at hv
        obtain rfl := Option.some.inj hv
        exact land_self_of_sub fun i hb =>
          bitcons i0 (by simp) i (sub_mod_two_pow i hb)
  all_goals exact absurd hmask (by simp [compute_op_nzmask])

/-- A concrete IntAnd op for the C3 witness. -/
def c3wOp : PcodeOp :=
  PcodeOp.binary OpCode.IntAnd (Varnode.unique 100 1)
    (Varnode.register 0 1) (Varnode.register 8 1) 0

/-- A concrete environment for the C3 witness. -/
def c3wEnv : Varnode → Nat := fun _ => 3

/-- C3 witness: the soundness theorem applied to a concrete IntAnd op
under the empty analyzer state. -/
theorem C3_witness :
    compute_op_nzmask (fun _ => none) c3wOp = some 255
    ∧ evalOp c3wEnv c3wOp = some 3
    ∧ 3 &&& 255 = 3 :=
  ⟨by decide, by decide,
   C3_nzmask_sound (fun _ => none) c3wOp c3wEnv (Varnode.unique 100 1) 255 3
     (by decide) (by decide) (by decide) (by decide) (by decide) (by decide)
     (by decide) (by decide) (fun h => absurd h (by decide))
     (fun h => absurd h (by decide)) (by decide) (by decide)⟩

/-! ## Rewrite-rule engine (optimizer.rs)

Each default rule's `apply` is embedded as a function returning
`Option (Bool × PcodeOp)`: `some (changed, op')` mirrors the Rust
mutation and return value, `none` models a Rust panic (the
`op.output.clone().unwrap()` on an op without output). -/

/-- The twelve rules installed by `Optimizer::new`. -/
inductive OptRule where
  | termOrder | constantFold | zeroOp | andMask | orMask | orConsume
  | equality | lessOne | negateIdentity | shiftBitops | andOrLump | earlyRemoval
  deriving DecidableEq, Repr

/-- Mirror of each rule's `target_opcodes`. -/
def targetOpcodes : OptRule → List OpCode
  | OptRule.termOrder =>
      [OpCode.IntEqual, OpCode.IntNotEqual, OpCode.IntAdd, OpCode.IntXor, OpCode.IntAnd,
       OpCode.IntOr, OpCode.IntMult, OpCode.BoolXor, OpCode.BoolAnd, OpCode.BoolOr]
  | OptRule.constantFold =>
      [OpCode.IntAdd, OpCode.IntSub, OpCode.IntMult, OpCode.IntAnd, OpCode.IntOr,
       OpCode.IntXor, OpCode.IntLeft, OpCode.IntRight]
  | OptRule.zeroOp =>
      [OpCode.IntAdd, OpCode.IntSub, OpCode.IntMult, OpCode.IntOr, OpCode.IntXor]
  | OptRule.andMask => [OpCode.IntAnd]
  | OptRule.orMask => [OpCode.IntOr]
  | OptRule.orConsume => [OpCode.IntOr, OpCode.IntXor]
  | OptRule.equality => [OpCode.IntEqual, OpCode.IntNotEqual]
  | OptRule.lessOne => [OpCode.IntLess]
  | OptRule.negateIdentity => [OpCode.IntNegate]
  | OptRule.shiftBitops => [OpCode.IntAnd]
  | OptRule.andOrLump => [OpCode.IntAnd, OpCode.IntOr, OpCode.IntXor]
  | OptRule.earlyRemoval => []

/-- Rust u64 wrapping subtraction. -/
def wrappingSub (a b : Nat) : Nat :=
  (((a : Int) - b) % ((2 : Int) ^ 64)).toNat

/-- Mirror of `RuleConstantFold::apply`'s result computation (u64
arithmetic with wrap, then the per-opcode masking the source applies). -/
def constantFoldResult (opc : OpCode) (val1 val2 size : Nat) : Option Nat :=
  let mask := calc_mask size
  match opc with
  | OpCode.IntAdd => some (((val1 + val2) % 2 ^ 64) &&& mask)
  | OpCode.IntSub => some (wrappingSub val1 val2 &&& mask)
  | OpCode.IntMult => some (((val1 * val2) % 2 ^ 64) &&& mask)
  | OpCode.IntAnd => some (val1 &&& val2)
  | OpCode.IntOr => some (val1 ||| val2)
  | OpCode.IntXor => some (val1 ^^^ val2)
  | OpCode.IntLeft => some (((val1 <<< val2) % 2 ^ 64) &&& mask)
  | OpCode.IntRight => some (val1 >>> val2)
  | _ => none

/-- Mirror of `OptimizationRule::apply` for each default rule; the
context is the NZ-mask analyzer state (the removal set is never used by
the default rules). -/
def applyRule (r : OptRule) (m : NZMasks) (op : PcodeOp) : Option (Bool × PcodeOp) :=
  match r with
  | OptRule.earlyRemoval => some (false, op)
  | OptRule.negateIdentity => some (false, op)
  | OptRule.shiftBitops => some (false, op)
  | OptRule.andOrLump => some (false, op)
  | OptRule.termOrder =>
      match op.inputs with
      | i0 :: i1 :: rest =>
          if i0.space = AddressSpace.Const ∧ i1.space ≠ AddressSpace.Const then
            some (true, { op with inputs := i1 :: i0 :: rest })
          else some (false, op)
      | _ => some (false, op)
  | OptRule.andMask =>
      match op.inputs with
      | i0 :: i1 :: _ =>
          let output_size := outSizeD op 8
          if 8 < output_size then some (false, op)
          else
            let mask1 := get_nzmask m i0
            let mask2 := get_nzmask m i1
            let and_mask := mask1 &&& mask2
            let full_mask := calc_mask output_size
            if and_mask = 0 then
              match op.output with
              | some o => some (true,
                  PcodeOp.unary OpCode.Copy o (Varnode.constant 0 output_size) op.address)
              | none => none
            else if i1.space = AddressSpace.Const ∧ and_mask = mask1 then
              match op.output with
              | some o => some (true, PcodeOp.unary OpCode.Copy o i0 op.address)
              | none => none
            else if i1.space = AddressSpace.Const ∧ (i1.offset &&& full_mask) = full_mask then
              match op.output with
              | some o => some (true, PcodeOp.unary OpCode.Copy o i0 op.address)
              | none => none
            else some (false, op)
      | _ => some (false, op)
  | OptRule.orMask =>
      match op.inputs with
      | i0 :: i1 :: _ =>
          let output_size := outSizeD op 8
          if 8 < output_size then some (false, op)
          else if i1.space ≠ AddressSpace.Const then some (false, op)
          else
            let val := i1.offset
            let full_mask := calc_mask output_size
            if (val &&& full_mask) = full_mask then
              match op.output with
              | some o => some (true,
                  PcodeOp.unary OpCode.Copy o (Varnode.constant full_mask output_size) op.address)
              | none => none
            else if (get_nzmask m i0 ||| val) = val then
              match op.output with
              | some o => some (true, PcodeOp.unary OpCode.Copy o i1 op.address)
              | none => none
            else some (false, op)
      | _ => some (false, op)
  | OptRule.orConsume =>
      match op.output with
      | none => some (false, op)
      | some o =>
          match op.inputs with
          | i0 :: i1 :: _ =>
              if 8 < o.size then some (false, op)
              else if get_nzmask m i0 = 0 then
                some (true, PcodeOp.unary OpCode.Copy o i1 op.address)
              else if get_nzmask m i1 = 0 then
                some (true, PcodeOp.unary OpCode.Copy o i0 op.address)
              else some (false, op)
          | _ => some (false, op)
  | OptRule.equality =>
      match op.inputs with
      | i0 :: i1 :: _ =>
          if i0 = i1 then
            match op.output with
            | some o => some (true,
                PcodeOp.unary OpCode.Copy o
                  (Varnode.constant (if op.opcode = OpCode.IntEqual then 1 else 0) 1) op.address)
            | none => none
          else some (false, op)
      | _ => some (false, op)
  | OptRule.constantFold =>
      match op.inputs with
      | i0 :: i1 :: _ =>
          if i0.space ≠ AddressSpace.Const ∨ i1.space ≠ AddressSpace.Const then
            some (false, op)
          else
            let size := outSizeD op 8
            match constantFoldResult op.opcode i0.offset i1.offset size with
            | some result =>
                match op.output with
                | some o => some (true,
                    PcodeOp.unary OpCode.Copy o (Varnode.constant result size) op.address)
                | none => none
            | none => some (false, op)
      | _ => some (false, op)
  | OptRule.lessOne =>
      match op.inputs with
      | i0 :: i1 :: _ =>
          if i1.space = AddressSpace.Const ∧ i1.offset = 1 then
            match op.output with
            | some o => some (true,
                PcodeOp.binary OpCode.IntEqual o i0 (Varnode.constant 0 i0.size) op.address)
            | none => none
          else some (false, op)
      | _ => some (false, op)
  | OptRule.zeroOp =>
      match op.inputs with
      | i0 :: i1 :: _ =>
          let is_zero_1 := i1.space = AddressSpace.Const ∧ i1.offset = 0
          match op.opcode with
          | OpCode.IntAdd | OpCode.IntSub | OpCode.IntOr | OpCode.IntXor =>
              if is_zero_1 then
                match op.output with
                | some o => some (true, PcodeOp.unary OpCode.Copy o i0 op.address)
                | none => none
              else some (false, op)
          | OpCode.IntMult =>
              if is_zero_1 then
                match op.output with
                | some o => some (true,
                    PcodeOp.unary OpCode.Copy o (Varnode.constant 0 i0.size) op.address)
                | none => none
              else some (false, op)
          | _ => some (false, op)
      | _ => some (false, op)

/-! Helper lemmas for rewrite-rule semantic preservation. -/

/-- Bit-subset facts combine under AND. -/
theorem land_mono2 {a ma b mb : Nat} (ha : a &&& ma = a) (hb : b &&& mb = b) :
    (a &&& b) &&& (ma &&& mb) = a &&& b := by
  apply land_self_of_sub
  intro i h
  rw [Nat.testBit_land] at h ⊢
  rcases (Bool.and_eq_true _ _).mp h with ⟨h1, h2⟩
  rw [sub_of_land_self ha i h1, sub_of_land_self hb i h2]
  rfl

/-- Bit-subset is transitive. -/
theorem sub_land_trans {a n n' : Nat} (h1 : a &&& n = a) (h2 : n &&& n' = n) :
    a &&& n' = a :=
  land_self_of_sub fun i hi => sub_of_land_self h2 i (sub_of_land_self h1 i hi)

/-- AND with calc_mask is reduction mod 2^(8s) for s ≤ 8. -/
theorem and_cmask_eq_mod {x s : Nat} (hs : s ≤ 8) :
    x &&& calc_mask s = x % 2 ^ (8 * s) := by
  rw [calc_mask_le8 hs, Nat.and_pow_two_sub_one_eq_mod]

/-- A value bit-below 0 is 0. -/
theorem eq_zero_of_sub_zero {x : Nat} (h : x &&& 0 = x) : x = 0 := by
  rw [Nat.and_zero] at h
  omega

/-- ANDing with a value whose low k bits are all set is invisible mod 2^k. -/
theorem and_mod_eq_of_full {v0 v1 k : Nat} (h : ∀ i < k, v1.testBit i = true) :
    (v0 &&& v1) % 2 ^ k = v0 % 2 ^ k := by
  apply Nat.eq_of_testBit_eq
  intro i
  rw [Nat.testBit_mod_two_pow, Nat.testBit_mod_two_pow, Nat.testBit_land]
  by_cases hik : i < k
  · simp [hik, h i hik]
  · simp [hik]

/-- ORing a value whose low k bits are all set saturates mod 2^k. -/
theorem or_full_mod {v0 v1 k : Nat} (h : ∀ i < k, v1.testBit i = true) :
    (v0 ||| v1) % 2 ^ k = 2 ^ k - 1 := by
  apply Nat.eq_of_testBit_eq
  intro i
  rw [Nat.testBit_mod_two_pow, Nat.testBit_lor, Nat.testBit_two_pow_sub_one]
  by_cases hik : i < k
  · simp [hik, h i hik]
  · simp [hik]

/-- Extracting the all-set low bits from `val &&& calc_mask s = calc_mask s`. -/
theorem full_bits_of_and {val s : Nat} (hs : s ≤ 8) (h : val &&& calc_mask s = calc_mask s) :
    ∀ i < 8 * s, val.testBit i = true := by
  intro i hi
  have h2 : (val &&& calc_mask s).testBit i = (calc_mask s).testBit i := by rw [h]
  rw [Nat.testBit_land, calc_mask_le8 hs, Nat.testBit_two_pow_sub_one] at h2
  simpa [hi] using h2

/-- Truncating an Int remainder mod 2^k and then mod 2^j (j ≤ k) is the
same as the single remainder mod 2^j, at the Nat level. -/
theorem toNat_emod_pow_mod (x : Int) (j k : Nat) (hjk : j ≤ k) :
    ((x % ((2 : Int) ^ k)).toNat) % 2 ^ j = (x % ((2 : Int) ^ j)).toNat := by
  have hk : (0 : Int) < 2 ^ k := by positivity
  have hj : (0 : Int) < 2 ^ j := by positivity
  have hnnk := Int.emod_nonneg x (ne_of_gt hk)
  have hnnj := Int.emod_nonneg x (ne_of_gt hj)
  have key : (x % 2 ^ k) % 2 ^ j = x % 2 ^ j :=
    Int.emod_emod_of_dvd x (pow_dvd_pow 2 hjk)
  have hcast : (((x % 2 ^ k).toNat % 2 ^ j : Nat) : Int) = ((x % 2 ^ j).toNat : Int) := by
    push_cast [Int.toNat_of_nonneg hnnk, Int.toNat_of_nonneg hnnj]
    exact key
  exact_mod_cast hcast

/-- Casting a Nat through Int emod by a power of two. -/
theorem toNat_natCast_emod (v k : Nat) :
    (((v : Int) % ((2 : Int) ^ k)).toNat) = v % 2 ^ k := by
  have : ((2 : Int) ^ k) = ((2 ^ k : Nat) : Int) := by push_cast; ring
  rw [this]
  omega

/-- The state of the and-mask counterexample: the analyzer has recorded
mask 2^40 for the 8-byte register at offset 0. -/
def c4AndState : NZMasks := set_nzmask (fun _ => none) (Varnode.register 0 8) (2 ^ 40)

/-- An IntAnd whose second input is a size-4 constant carrying raw bit 40
above its size: the analyzer sees mask 0 for it and the rule folds the
op to a copy of constant 0. -/
def c4AndOp : PcodeOp :=
  PcodeOp.binary OpCode.IntAnd (Varnode.unique 300 8)
    (Varnode.register 0 8) (Varnode.constant (2 ^ 40) 4) 0

/-- Environment where the register really holds 2^40. -/
def c4AndEnv : Varnode → Nat := fun _ => 2 ^ 40

/-- A size-16-output constant fold: 2^63 + 2^63 wraps to 0 in the rule's
u64 arithmetic but is 2^64 under the mod 2^(8*16) op semantics. -/
def c4FoldOp : PcodeOp :=
  PcodeOp.binary OpCode.IntAdd (Varnode.unique 301 16)
    (Varnode.constant (2 ^ 63) 8) (Varnode.constant (2 ^ 63) 8) 0

/-- C4 counterexample: two rule applications that return true yet change
the computed value: the and-mask rule on a constant whose offset has
bits above its size (the op computes 2^40, the rewrite computes 0), and
constant folding on an op with a 16-byte output (the op computes 2^64,
the rewrite computes 0). -/
theorem C4_counterexample :
    (applyRule OptRule.andMask c4AndState c4AndOp
        = some (true, PcodeOp.unary OpCode.Copy (Varnode.unique 300 8) (Varnode.constant 0 8) 0)
      ∧ valueOf c4AndEnv (Varnode.register 0 8) &&& get_nzmask c4AndState (Varnode.register 0 8)
        = valueOf c4AndEnv (Varnode.register 0 8)
      ∧ evalOp c4AndEnv c4AndOp = some (2 ^ 40)
      ∧ evalOp c4AndEnv
          (PcodeOp.unary OpCode.Copy (Varnode.unique 300 8) (Varnode.constant 0 8) 0) = some 0
      ∧ (2 ^ 40 : Nat) ≠ 0)
    ∧ (applyRule OptRule.constantFold (fun _ => none) c4FoldOp
        = some (true, PcodeOp.unary OpCode.Copy (Varnode.unique 301 16) (Varnode.constant 0 16) 0)
      ∧ evalOp (fun _ => 0) c4FoldOp = some (2 ^ 64)
      ∧ evalOp (fun _ => 0)
          (PcodeOp.unary OpCode.Copy (Varnode.unique 301 16) (Varnode.constant 0 16) 0) = some 0
      ∧ (2 ^ 64 : Nat) ≠ 0) := by
  decide

/-- AND is bit-decreasing on the left. -/
theorem land_sub_left (a b : Nat) : (a &&& b) &&& a = a &&& b := by
  apply land_self_of_sub
  intro i h
  rw [Nat.testBit_land] at h
  exact ((Bool.and_eq_true _ _).mp h).1

/-- If a OR b collapses to b, every set bit of a is set in b. -/
theorem sub_of_lor_eq {a b : Nat} (h : a ||| b = b) : a &&& b = a := by
  apply land_self_of_sub
  intro i hi
  have h2 : (a ||| b).testBit i = b.testBit i := by rw [h]
  rw [Nat.testBit_lor, hi] at h2
  simpa using h2.symm

/-- If every set bit of a is set in b, a OR b collapses to b. -/
theorem lor_eq_of_sub {a b : Nat} (h : a &&& b = a) : a ||| b = b := by
  apply Nat.eq_of_testBit_eq
  intro i
  rw [Nat.testBit_lor]
  cases ha : a.testBit i with
  | false => simp
  | true => simp [sub_of_land_self h i ha]

/-- A constant Varnode's value is its stored offset. -/
theorem valueOf_constant (env : Varnode → Nat) (v s : Nat) :
    valueOf env (Varnode.constant v s) = v := by
  simp [valueOf, Varnode.constant, Varnode.new]

/-- An Int remainder by 2^k reads back below 2^k. -/
theorem toNat_emod_two_pow_lt (x : Int) (k : Nat) :
    ((x % ((2 : Int) ^ k)).toNat) < 2 ^ k := by
  have hk : (0 : Int) < 2 ^ k := by positivity
  have hlt := Int.emod_lt_of_pos x hk
  have hnn := Int.emod_nonneg x (ne_of_gt hk)
  exact (Int.toNat_lt hnn).mpr (by exact_mod_cast hlt)

/-- C4 (amended): every rule of the default rewrite set, applied by the
driver (the target-opcode guard holds) to an op whose input values lie
within their size-bounded NZ-masks, whose constant inputs have no stale
analyzer entry, whose output size is between 1 and 8, and whose constant
shift amounts are below 64, preserves the output Varnode (hence its
size) and the computed value whenever apply returns true. -/
theorem C4_rewrite_preserves
    (r : OptRule) (m : NZMasks) (op op' : PcodeOp) (env : Varnode → Nat)
    (hguard : targetOpcodes r = [] ∨ op.opcode ∈ targetOpcodes r)
    (hcons : ∀ vn ∈ op.inputs, valueOf env vn &&& get_nzmask m vn = valueOf env vn)
    (hbound : ∀ vn ∈ op.inputs, get_nzmask m vn &&& calc_mask vn.size = get_nzmask m vn)
    (hnoconst : ∀ vn ∈ op.inputs, vn.space = AddressSpace.Const → m vn = none)
    (hosz : ∀ o, op.output = some o → 1 ≤ o.size ∧ o.size ≤ 8)
    (hshift64 : (op.opcode = OpCode.IntLeft ∨ op.opcode = OpCode.IntRight) →
      ∀ i1, op.inputs.get? 1 = some i1 → i1.space = AddressSpace.Const → i1.offset < 64)
    (happ : applyRule r m op = some (true, op')) :
    op'.output = op.output ∧ evalOp env op' = evalOp env op := by
  rcases op with ⟨opc, outop, inputs, addr⟩
  cases r
  case negateIdentity => exact absurd happ (by simp [applyRule])
  case shiftBitops => exact absurd happ (by simp [applyRule])
  case andOrLump => exact absurd happ (by simp [applyRule])
  case earlyRemoval => exact absurd happ (by simp [applyRule])
  case termOrder =>
    match inputs, hcons, happ with
    | [], _, happ => exact absurd happ (by simp [applyRule])
    | [i0], _, happ => exact absurd happ (by simp [applyRule])
    | i0 :: i1 :: rest, hcons, happ =>
      simp only [applyRule] at happ
      split at happ
      case isFalse => exact absurd happ (by simp)
      case isTrue hc =>
        injection happ with happ
        injection happ with hb hop
        subst hop
        refine ⟨rfl, ?_⟩
        rcases hguard with h | h
        · exact absurd h (by simp [targetOpcodes])
        simp only [targetOpcodes, List.mem_cons, List.mem_singleton] at h
        cases outop with
        | none => rfl
        | some out =>
          rcases h with rfl | rfl | rfl | rfl | rfl | rfl | rfl | rfl | rfl | rfl | h
          · by_cases he : valueOf env i0 = valueOf env i1
            · simp [evalOp, he]
            · have he2 : ¬(valueOf env i1 = valueOf env i0) := fun hh => he hh.symm
              simp [evalOp, he, he2]
          · by_cases he : valueOf env i0 = valueOf env i1
            · simp [evalOp, he]
            · have he2 : ¬(valueOf env i1 = valueOf env i0) := fun hh => he hh.symm
              simp [evalOp, he, he2]
          · simp only [evalOp]
            rw [Nat.add_comm]
          · simp only [evalOp]
            rw [Nat.xor_comm]
          · simp only [evalOp]
            rw [Nat.land_comm]
          · simp only [evalOp]
            rw [Nat.lor_comm]
          · simp only [evalOp]
            rw [Nat.mul_comm]
          · by_cases h0 : valueOf env i0 = 0 <;> by_cases h1 : valueOf env i1 = 0 <;>
              simp [evalOp, h0, h1]
          · by_cases h0 : valueOf env i0 = 0 <;> by_cases h1 : valueOf env i1 = 0 <;>
              simp [evalOp, h0, h1]
          · by_cases h0 : valueOf env i0 = 0 <;> by_cases h1 : valueOf env i1 = 0 <;>
              simp [evalOp, h0, h1]
          · cases h
  case zeroOp =>
    rcases hguard with h | h
    · exact absurd h (by simp [targetOpcodes])
    simp only [targetOpcodes, List.mem_cons, List.mem_singleton] at h
    match inputs, hcons, happ with
    | [], _, happ => exact absurd happ (by simp [applyRule])
    | [i0], _, happ => exact absurd happ (by simp [applyRule])
    | i0 :: i1 :: rest, hcons, happ =>
      rcases h with rfl | rfl | rfl | rfl | rfl | h
      case _ =>
        -- IntAdd
        simp only [applyRule] at happ
        split at happ
        case isFalse => exact absurd happ (by simp)
        case isTrue hz =>
          cases outop with
          | none => exact absurd happ (by simp)
          | some out =>
            injection happ with happ
            injection happ with hb hop
            subst hop
            refine ⟨rfl, ?_⟩
            have hv1 : valueOf env i1 = 0 := by simp [valueOf, hz.1, hz.2]
            simp only [evalOp, PcodeOp.unary, PcodeOp.new]
            rw [hv1, Nat.add_zero]
      case _ =>
        -- IntSub
        simp only [applyRule] at happ
        split at happ
        case isFalse => exact absurd happ (by simp)
        case isTrue hz =>
          cases outop with
          | none => exact absurd happ (by simp)
          | some out =>
            injection happ with happ
            injection happ with hb hop
            subst hop
            refine ⟨rfl, ?_⟩
            have hv1 : valueOf env i1 = 0 := by simp [valueOf, hz.1, hz.2]
            simp only [evalOp, PcodeOp.unary, PcodeOp.new]
            rw [hv1]
            simp only [Nat.cast_zero, sub_zero]
            rw [toNat_natCast_emod]
      case _ =>
        -- IntMult
        simp only [applyRule] at happ
        split at happ
        case isFalse => exact absurd happ (by simp)
        case isTrue hz =>
          cases outop with
          | none => exact absurd happ (by simp)
          | some out =>
            injection happ with happ
            injection happ with hb hop
            subst hop
            refine ⟨rfl, ?_⟩
            have hv1 : valueOf env i1 = 0 := by simp [valueOf, hz.1, hz.2]
            simp only [evalOp, PcodeOp.unary, PcodeOp.new]
            rw [hv1, Nat.mul_zero]
            simp [valueOf, Varnode.constant, Varnode.new]
      case _ =>
        -- IntOr
        simp only [applyRule] at happ
        split at happ
        case isFalse => exact absurd happ (by simp)
        case isTrue hz =>
          cases outop with
          | none => exact absurd happ (by simp)
          | some out =>
            injection happ with happ
            injection happ with hb hop
            subst hop
            refine ⟨rfl, ?_⟩
            have hv1 : valueOf env i1 = 0 := by simp [valueOf, hz.1, hz.2]
            simp only [evalOp, PcodeOp.unary, PcodeOp.new]
            rw [hv1, Nat.or_zero]
      case _ =>
        -- IntXor
        simp only [applyRule] at happ
        split at happ
        case isFalse => exact absurd happ (by simp)
        case isTrue hz =>
          cases outop with
          | none => exact absurd happ (by simp)
          | some out =>
            injection happ with happ
            injection happ with hb hop
            subst hop
            refine ⟨rfl, ?_⟩
            have hv1 : valueOf env i1 = 0 := by simp [valueOf, hz.1, hz.2]
            simp only [evalOp, PcodeOp.unary, PcodeOp.new]
            rw [hv1, Nat.xor_zero]
      case _ => cases h
  case orConsume =>
    rcases hguard with h | h
    · exact absurd h (by simp [targetOpcodes])
    simp only [targetOpcodes, List.mem_cons, List.mem_singleton] at h
    cases outop with
    | none => exact absurd happ (by simp [applyRule])
    | some out =>
      match inputs, hcons, happ with
      | [], _, happ => exact absurd happ (by simp [applyRule])
      | [i0], _, happ => exact absurd happ (by simp [applyRule])
      | i0 :: i1 :: rest, hcons, happ =>
        simp only [applyRule] at happ
        split at happ
        case isTrue => exact absurd happ (by simp)
        case isFalse hsz =>
          split at happ
          case isTrue h0 =>
            injection happ with happ
            injection happ with hb hop
            subst hop
            refine ⟨rfl, ?_⟩
            have hv0 : valueOf env i0 = 0 := by
              apply eq_zero_of_sub_zero
              have := hcons i0 (by simp)
              rw [h0] at this
              exact this
            rcases h with rfl | rfl | h
            · simp only [evalOp, PcodeOp.unary, PcodeOp.new]
              rw [hv0, Nat.zero_or]
            · simp only [evalOp, PcodeOp.unary, PcodeOp.new]
              rw [hv0, Nat.zero_xor]
            · cases h
          case isFalse =>
            split at happ
            case isTrue h1 =>
              injection happ with happ
              injection happ with hb hop
              subst hop
              refine ⟨rfl, ?_⟩
              have hv1 : valueOf env i1 = 0 := by
                apply eq_zero_of_sub_zero
                have := hcons i1 (by simp)
                rw [h1] at this
                exact this
              rcases h with rfl | rfl | h
              · simp only [evalOp, PcodeOp.unary, PcodeOp.new]
                rw [hv1, Nat.or_zero]
              · simp only [evalOp, PcodeOp.unary, PcodeOp.new]
                rw [hv1, Nat.xor_zero]
              · cases h
            case isFalse => exact absurd happ (by simp)
  case equality =>
    rcases hguard with h | h
    · exact absurd h (by simp [targetOpcodes])
    simp only [targetOpcodes, List.mem_cons, List.mem_singleton] at h
    match inputs, hcons, happ with
    | [], _, happ => exact absurd happ (by simp [applyRule])
    | [i0], _, happ => exact absurd happ (by simp [applyRule])
    | i0 :: i1 :: rest, hcons, happ =>
      simp only [applyRule] at happ
      split at happ
      case isFalse => exact absurd happ (by simp)
      case isTrue heq =>
        subst heq
        cases outop with
        | none => exact absurd happ (by simp)
        | some out =>
          injection happ with happ
          injection happ with hb hop
          subst hop
          refine ⟨rfl, ?_⟩
          have hsz := hosz out rfl
          have hlt : 1 < 2 ^ (8 * out.size) := by
            calc 1 < 2 ^ 8 := by norm_num
              _ ≤ 2 ^ (8 * out.size) := Nat.pow_le_pow_right (by norm_num) (by omega)
          rcases h with rfl | rfl | h
          · simp [evalOp, PcodeOp.unary, PcodeOp.new, valueOf, Varnode.constant, Varnode.new,
              Nat.mod_eq_of_lt hlt]
          · simp [evalOp, PcodeOp.unary, PcodeOp.new, valueOf, Varnode.constant, Varnode.new]
          · cases h
  case lessOne =>
    rcases hguard with h | h
    · exact absurd h (by simp [targetOpcodes])
    simp only [targetOpcodes, List.mem_cons, List.mem_singleton] at h
    rcases h with rfl | h
    case _ =>
      match inputs, hcons, happ with
      | [], _, happ => exact absurd happ (by simp [applyRule])
      | [i0], _, happ => exact absurd happ (by simp [applyRule])
      | i0 :: i1 :: rest, hcons, happ =>
        simp only [applyRule] at happ
        split at happ
        case isFalse => exact absurd happ (by simp)
        case isTrue hc =>
          cases outop with
          | none => exact absurd happ (by simp)
          | some out =>
            injection happ with happ
            injection happ with hb hop
            subst hop
            refine ⟨rfl, ?_⟩
            have hv1 : valueOf env i1 = 1 := by simp [valueOf, hc.1, hc.2]
            have hvc : valueOf env (Varnode.constant 0 i0.size) = 0 := by
              simp [valueOf, Varnode.constant, Varnode.new]
            simp only [evalOp, PcodeOp.binary, PcodeOp.new]
            rw [hv1, hvc]
            by_cases h0 : valueOf env i0 = 0
            · simp [h0]
            · simp [h0, Nat.lt_one_iff]
    case _ => cases h
  case andMask =>
    rcases hguard with h | h
    · exact absurd h (by simp [targetOpcodes])
    simp only [targetOpcodes, List.mem_singleton] at h
    subst h
    match inputs, hcons, hbound, hnoconst, happ with
    | [], _, _, _, happ => exact absurd happ (by simp [applyRule])
    | [i0], _, _, _, happ => exact absurd happ (by simp [applyRule])
    | i0 :: i1 :: rest, hcons, hbound, hnoconst, happ =>
      simp only [applyRule] at happ
      split at happ
      case isTrue => exact absurd happ (by simp)
      case isFalse hle8 =>
        split at happ
        case isTrue h0 =>
          cases outop with
          | none => exact absurd happ (by simp)
          | some out =>
            injection happ with happ
            injection happ with hb hop
            subst hop
            refine ⟨rfl, ?_⟩
            have hz : valueOf env i0 &&& valueOf env i1 = 0 := by
              apply eq_zero_of_sub_zero
              have := land_mono2 (hcons i0 (by simp)) (hcons i1 (by simp))
              rw [h0] at this
              exact this
            simp only [evalOp, PcodeOp.unary, PcodeOp.new, outSizeD]
            rw [hz]
            simp [valueOf, Varnode.constant, Varnode.new]
        case isFalse =>
          split at happ
          case isTrue hc =>
            cases outop with
            | none => exact absurd happ (by simp)
            | some out =>
              injection happ with happ
              injection happ with hb hop
              subst hop
              refine ⟨rfl, ?_⟩
              have hget1 : get_nzmask m i1 = i1.offset &&& calc_mask i1.size := by
                unfold get_nzmask
                rw [hnoconst i1 (by simp) hc.1]
                rw [if_pos hc.1]
              have hv1 : valueOf env i1 = i1.offset := by simp [valueOf, hc.1]
              have hsub : valueOf env i0 &&& valueOf env i1 = valueOf env i0 := by
                have s1 : valueOf env i0 &&& get_nzmask m i0 = valueOf env i0 :=
                  hcons i0 (by simp)
                have s2 : get_nzmask m i0 &&& get_nzmask m i1 = get_nzmask m i0 := hc.2
                have s3 : get_nzmask m i1 &&& i1.offset = get_nzmask m i1 := by
                  rw [hget1]
                  exact land_sub_left _ _
                rw [hv1]
                exact sub_land_trans (sub_land_trans s1 s2) s3
              simp only [evalOp, PcodeOp.unary, PcodeOp.new]
              rw [hsub]
          case isFalse =>
            split at happ
            case isTrue hc =>
              cases outop with
              | none => exact absurd happ (by simp)
              | some out =>
                injection happ with happ
                injection happ with hb hop
                subst hop
                refine ⟨rfl, ?_⟩
                have hle8o : out.size ≤ 8 := by
                  simp only [outSizeD] at hle8
                  omega
                have hv1 : valueOf env i1 = i1.offset := by simp [valueOf, hc.1]
                have hbits : ∀ i < 8 * out.size, (i1.offset).testBit i = true := by
                  have := hc.2
                  simp only [outSizeD] at this
                  exact full_bits_of_and hle8o this
                simp only [evalOp, PcodeOp.unary, PcodeOp.new]
                rw [hv1, and_mod_eq_of_full hbits]
            case isFalse => exact absurd happ (by simp)
  case orMask =>
    rcases hguard with h | h
    · exact absurd h (by simp [targetOpcodes])
    simp only [targetOpcodes, List.mem_singleton] at h
    subst h
    match inputs, hcons, hbound, hnoconst, happ with
    | [], _, _, _, happ => exact absurd happ (by simp [applyRule])
    | [i0], _, _, _, happ => exact absurd happ (by simp [applyRule])
    | i0 :: i1 :: rest, hcons, hbound, hnoconst, happ =>
      simp only [applyRule] at happ
      split at happ
      case isTrue => exact absurd happ (by simp)
      case isFalse hle8 =>
        split at happ
        case isTrue => exact absurd happ (by simp)
        case isFalse hcraw =>
          have hc1 : i1.space = AddressSpace.Const := by
            by_contra hne
            exact hcraw hne
          split at happ
          case isTrue hfull =>
            cases outop with
            | none => exact absurd happ (by simp)
            | some out =>
              injection happ with happ
              injection happ with hb hop
              subst hop
              refine ⟨rfl, ?_⟩
              have hle8o : out.size ≤ 8 := by
                simp only [outSizeD] at hle8
                omega
              have hv1 : valueOf env i1 = i1.offset := by simp [valueOf, hc1]
              have hbits : ∀ i < 8 * out.size, (i1.offset).testBit i = true := by
                have := hfull
                simp only [outSizeD] at this
                exact full_bits_of_and hle8o this
              simp only [evalOp, PcodeOp.unary, PcodeOp.new, outSizeD]
              rw [hv1, or_full_mod hbits]
              have hcm : calc_mask out.size = 2 ^ (8 * out.size) - 1 := calc_mask_le8 hle8o
              have hlt : calc_mask out.size < 2 ^ (8 * out.size) := by
                rw [hcm]
                exact Nat.sub_lt (by positivity) (by norm_num)
              simp [valueOf, Varnode.constant, Varnode.new, Nat.mod_eq_of_lt hlt, hcm]
          case isFalse =>
            split at happ
            case isTrue hcov =>
              cases outop with
              | none => exact absurd happ (by simp)
              | some out =>
                injection happ with happ
                injection happ with hb hop
                subst hop
                refine ⟨rfl, ?_⟩
                have hv1 : valueOf env i1 = i1.offset := by simp [valueOf, hc1]
                have hsub0 : valueOf env i0 &&& i1.offset = valueOf env i0 :=
                  sub_land_trans (hcons i0 (by simp)) (sub_of_lor_eq hcov)
                simp only [evalOp, PcodeOp.unary, PcodeOp.new]
                rw [hv1, lor_eq_of_sub hsub0]
            case isFalse => exact absurd happ (by simp)
  case constantFold =>
    rcases hguard with h | h
    · exact absurd h (by simp [targetOpcodes])
    simp only [targetOpcodes, List.mem_cons, List.mem_singleton] at h
    match inputs, hcons, happ with
    | [], _, happ => exact absurd happ (by simp [applyRule])
    | [i0], _, happ => exact absurd happ (by simp [applyRule])
    | i0 :: i1 :: rest, hcons, happ =>
      simp only [applyRule] at happ
      split at happ
      case isTrue => exact absurd happ (by simp)
      case isFalse hcc =>
        have hc0 : i0.space = AddressSpace.Const := by
          by_contra hne
          exact hcc (Or.inl hne)
        have hc1 : i1.space = AddressSpace.Const := by
          by_contra hne
          exact hcc (Or.inr hne)
        have hv0 : valueOf env i0 = i0.offset := by simp [valueOf, hc0]
        have hv1 : valueOf env i1 = i1.offset := by simp [valueOf, hc1]
        rcases h with rfl | rfl | rfl | rfl | rfl | rfl | rfl | rfl | h
        · -- IntAdd
          simp only [constantFoldResult] at happ
          cases outop with
          | none => exact absurd happ (by simp)
          | some out =>
            have hsz := hosz out rfl
            have hdvd : (2 : Nat) ^ (8 * out.size) ∣ 2 ^ 64 := pow_dvd_pow 2 (by omega)
            injection happ with happ
            injection happ with hb hop
            subst hop
            refine ⟨rfl, ?_⟩
            simp only [evalOp, PcodeOp.unary, PcodeOp.new, valueOf_constant, outSizeD]
            rw [and_cmask_eq_mod hsz.2, Nat.mod_mod_of_dvd _ hdvd,
              Nat.mod_mod_of_dvd _ (dvd_refl _), hv0, hv1]
        · -- IntSub
          simp only [constantFoldResult] at happ
          cases outop with
          | none => exact absurd happ (by simp)
          | some out =>
            have hsz := hosz out rfl
            injection happ with happ
            injection happ with hb hop
            subst hop
            refine ⟨rfl, ?_⟩
            simp only [evalOp, PcodeOp.unary, PcodeOp.new, valueOf_constant, outSizeD]
            unfold wrappingSub
            rw [and_cmask_eq_mod hsz.2, toNat_emod_pow_mod _ _ _ (by omega),
              Nat.mod_eq_of_lt (toNat_emod_two_pow_lt _ _), hv0, hv1]
        · -- IntMult
          simp only [constantFoldResult] at happ
          cases outop with
          | none => exact absurd happ (by simp)
          | some out =>
            have hsz := hosz out rfl
            have hdvd : (2 : Nat) ^ (8 * out.size) ∣ 2 ^ 64 := pow_dvd_pow 2 (by omega)
            injection happ with happ
            injection happ with hb hop
            subst hop
            refine ⟨rfl, ?_⟩
            simp only [evalOp, PcodeOp.unary, PcodeOp.new, valueOf_constant, outSizeD]
            rw [and_cmask_eq_mod hsz.2, Nat.mod_mod_of_dvd _ hdvd,
              Nat.mod_mod_of_dvd _ (dvd_refl _), hv0, hv1]
        · -- IntAnd
          simp only [constantFoldResult] at happ
          cases outop with
          | none => exact absurd happ (by simp)
          | some out =>
            injection happ with happ
            injection happ with hb hop
            subst hop
            refine ⟨rfl, ?_⟩
            simp only [evalOp, PcodeOp.unary, PcodeOp.new, valueOf_constant, outSizeD]
            rw [hv0, hv1]
        · -- IntOr
          simp only [constantFoldResult] at happ
          cases outop with
          | none => exact absurd happ (by simp)
          | some out =>
            injection happ with happ
            injection happ with hb hop
            subst hop
            refine ⟨rfl, ?_⟩
            simp only [evalOp, PcodeOp.unary, PcodeOp.new, valueOf_constant, outSizeD]
            rw [hv0, hv1]
        · -- IntXor
          simp only [constantFoldResult] at happ
          cases outop with
          | none => exact absurd happ (by simp)
          | some out =>
            injection happ with happ
            injection happ with hb hop
            subst hop
            refine ⟨rfl, ?_⟩
            simp only [evalOp, PcodeOp.unary, PcodeOp.new, valueOf_constant, outSizeD]
            rw [hv0, hv1]
        · -- IntLeft
          simp only [constantFoldResult] at happ
          cases outop with
          | none => exact absurd happ (by simp)
          | some out =>
            have hsz := hosz out rfl
            have hdvd : (2 : Nat) ^ (8 * out.size) ∣ 2 ^ 64 := pow_dvd_pow 2 (by omega)
            injection happ with happ
            injection happ with hb hop
            subst hop
            refine ⟨rfl, ?_⟩
            simp only [evalOp, PcodeOp.unary, PcodeOp.new, valueOf_constant, outSizeD]
            rw [and_cmask_eq_mod hsz.2, Nat.mod_mod_of_dvd _ hdvd,
              Nat.mod_mod_of_dvd _ (dvd_refl _), hv0, hv1]
        · -- IntRight
          simp only [constantFoldResult] at happ
          cases outop with
          | none => exact absurd happ (by simp)
          | some out =>
            injection happ with happ
            injection happ with hb hop
            subst hop
            refine ⟨rfl, ?_⟩
            simp only [evalOp, PcodeOp.unary, PcodeOp.new, valueOf_constant, outSizeD]
            rw [hv0, hv1]
        · cases h

/-- Concrete constant-fold application used to witness C4: 3 + 4 folded
to a copy of constant 7. -/
def c4wOp : PcodeOp :=
  PcodeOp.binary OpCode.IntAdd (Varnode.register 0 8)
    (Varnode.constant 3 8) (Varnode.constant 4 8) 0

/-- The folded result op for the C4 witness. -/
def c4wOp2 : PcodeOp :=
  PcodeOp.unary OpCode.Copy (Varnode.register 0 8) (Varnode.constant 7 8) 0

/-- The environment for the C4 witness. -/
def c4wEnv : Varnode → Nat := fun _ => 0

/-- Witness: C4_rewrite_preserves applies to the concrete constant fold
of 3 + 4, with every hypothesis discharged at that input. -/
theorem C4_witness :
    c4wOp2.output = c4wOp.output ∧ evalOp c4wEnv c4wOp2 = evalOp c4wEnv c4wOp :=
  C4_rewrite_preserves OptRule.constantFold (fun _ => none) c4wOp c4wOp2 c4wEnv
    (Or.inr (by decide))
    (by decide)
    (by decide)
    (by decide)
    (fun o ho => by cases ho; exact ⟨by decide, by decide⟩)
    (fun h => absurd h (by decide))
    (by decide)

/-! ## Def-use chains (dataflow.rs)

`VarnodeId::from` always sets `generation: 0`, so a VarnodeId is exactly
the Varnode's (space, offset, size) triple and the Varnode itself serves
as the key. A `DefUseChain` built by `build` is fully determined by the
op list it was built from: `defs` maps the id of each op's output to the
op's index (a later definition of the same id overwrites an earlier
one), and `get_def` reads that map and indexes into `ops`. -/

/-- Mirror of the `defs` map built by `DefUseChain::build`: fold over the
indexed ops, a later output overwrites an earlier one with the same
(space, offset, size) key. -/
def defsMap (ops : List PcodeOp) : Varnode → Option Nat :=
  ops.enum.foldl
    (fun m p =>
      match p.2.output with
      | some o => fun v => if v = o then some p.1 else m v
      | none => m)
    (fun _ => none)

/-- Mirror of `DefUseChain::get_def`: look up the defining op index and
fetch the op. -/
def get_def (ops : List PcodeOp) (vn : Varnode) : Option PcodeOp :=
  match defsMap ops vn with
  | some i => ops.get? i
  | none => none

/-! ## Jump-table detection (jumptable.rs) -/

/-- Mirror of the `JumpTable` struct (destinations stay empty at
detection time; `num_entries` is the hard-coded provisional 10). -/
structure JumpTable where
  table_address : Nat
  num_entries : Nat
  entry_size : Nat
  destinations : List Nat
  switch_var : Varnode
  deriving DecidableEq, Repr

/-- Mirror of `JumpTableDetector::analyze_load_pattern`: the address must
be defined by a PtrAdd with a constant base; a multiplication defining
the offset yields (index, entry size) — entry size defaults to 8 when
the multiplier is not a constant — and otherwise the offset itself is
the switch variable with entry size 8. `chain` is the op list the
detector's DefUseChain was built from. -/
def analyze_load_pattern (chain : List PcodeOp) (addr_vn : Varnode) : Option JumpTable :=
  match get_def chain addr_vn with
  | none => none
  | some addr_op =>
      match addr_op.opcode, addr_op.inputs with
      | OpCode.PtrAdd, base :: offset :: _ =>
          if base.space = AddressSpace.Const then
            match get_def chain offset with
            | some mult_op =>
                match mult_op.opcode, mult_op.inputs with
                | OpCode.IntMult, m0 :: m1 :: _ =>
                    some { table_address := base.offset, num_entries := 10,
                           entry_size :=
                             if m1.space = AddressSpace.Const then m1.offset else 8,
                           destinations := [], switch_var := m0 }
                | _, _ =>
                    some { table_address := base.offset, num_entries := 10,
                           entry_size := 8, destinations := [], switch_var := offset }
            | none =>
                some { table_address := base.offset, num_entries := 10,
                       entry_size := 8, destinations := [], switch_var := offset }
          else none
      | _, _ => none

/-- Mirror of `JumpTableDetector::analyze_indirect_branch`: the branch
target's defining op must be a Load with at least two inputs, and its
second input (the address computation) is analyzed. -/
def analyze_indirect_branch (chain : List PcodeOp) (op : PcodeOp) : Option JumpTable :=
  match op.inputs with
  | [] => none
  | target_vn :: _ =>
      match get_def chain target_vn with
      | some load_op =>
          match load_op.opcode, load_op.inputs with
          | OpCode.Load, _ :: addr :: _ => analyze_load_pattern chain addr
          | _, _ => none
      | none => none

/-- Mirror of `JumpTableDetector::detect`: scan the ops for BranchInd and
collect the successfully analyzed tables in order. -/
def JumpTableDetector.detect (chain : List PcodeOp) (ops : List PcodeOp) : List JumpTable :=
  ops.foldr
    (fun op acc =>
      if op.opcode = OpCode.BranchInd then
        match analyze_indirect_branch chain op with
        | some t => t :: acc
        | none => acc
      else acc)
    []

/-- A successfully analyzed BranchInd in the list contributes its table
to the detector's output. -/
theorem detect_mem_of_analyze (chain : List PcodeOp) (ops : List PcodeOp)
    (op : PcodeOp) (t : JumpTable) (hmem : op ∈ ops)
    (hbi : op.opcode = OpCode.BranchInd)
    (hana : analyze_indirect_branch chain op = some t) :
    t ∈ JumpTableDetector.detect chain ops := by
  induction ops with
  | nil => cases hmem
  | cons hd tl ih =>
      simp only [JumpTableDetector.detect, List.foldr] at *
      rcases List.mem_cons.mp hmem with rfl | htl
      · rw [if_pos hbi, hana]
        exact List.mem_cons_self _ _
      · have hrec := ih htl
        by_cases hb : hd.opcode = OpCode.BranchInd
        · rw [if_pos hb]
          cases hana2 : analyze_indirect_branch chain hd with
          | none => exact hrec
          | some t2 => exact List.mem_cons_of_mem _ hrec
        · rw [if_neg hb]
          exact hrec

/-- C6: when the dataflow pattern of the claim is present — an indirect
branch whose target is defined by a load whose address is defined by
ptr-add(const base, offset) with offset defined by
int-mult(index, const entry size) — the detector emits a table carrying
the base's value as table address, the constant as entry size, and the
index Varnode as switch variable, and that table appears in the
detector's result list for any op list containing the branch. -/
theorem C6_jumptable_detection
    (chain ops : List PcodeOp) (op load_op addr_op mult_op : PcodeOp)
    (target addr base offset idx esz : Varnode)
    (i0 : Varnode) (rest0 restL restP restM : List Varnode)
    (hmem : op ∈ ops)
    (hbi : op.opcode = OpCode.BranchInd)
    (hin : op.inputs = target :: rest0)
    (hload : get_def chain target = some load_op)
    (hloadop : load_op.opcode = OpCode.Load)
    (hloadin : load_op.inputs = i0 :: addr :: restL)
    (haddr : get_def chain addr = some addr_op)
    (haddrop : addr_op.opcode = OpCode.PtrAdd)
    (haddrin : addr_op.inputs = base :: offset :: restP)
    (hbase : base.space = AddressSpace.Const)
    (hmult : get_def chain offset = some mult_op)
    (hmultop : mult_op.opcode = OpCode.IntMult)
    (hmultin : mult_op.inputs = idx :: esz :: restM)
    (hesz : esz.space = AddressSpace.Const) :
    analyze_indirect_branch chain op =
      some { table_address := base.offset, num_entries := 10,
             entry_size := esz.offset, destinations := [], switch_var := idx } ∧
    { table_address := base.offset, num_entries := 10, entry_size := esz.offset,
      destinations := [], switch_var := idx : JumpTable }
      ∈ JumpTableDetector.detect chain ops := by
  have hana : analyze_indirect_branch chain op =
      some { table_address := base.offset, num_entries := 10,
             entry_size := esz.offset, destinations := [], switch_var := idx } := by
    simp only [analyze_indirect_branch, hin, hload, hloadop, hloadin,
      analyze_load_pattern, haddr, haddrop, haddrin, hbase, hmult,
      hmultop, hmultin, hesz, if_true]
  exact ⟨hana, detect_mem_of_analyze chain ops op _ hmem hbi hana⟩

/-- Concrete program for the C6 witness: idx*8, table+offset, load,
indirect branch. -/
def c6Ops : List PcodeOp :=
  [PcodeOp.binary OpCode.IntMult (Varnode.unique 1 8)
     (Varnode.register 0 8) (Varnode.constant 8 8) 0,
   PcodeOp.binary OpCode.PtrAdd (Varnode.unique 2 8)
     (Varnode.constant 16384 8) (Varnode.unique 1 8) 1,
   PcodeOp.binary OpCode.Load (Varnode.unique 3 8)
     (Varnode.constant 0 8) (Varnode.unique 2 8) 2,
   { opcode := OpCode.BranchInd, output := none,
     inputs := [Varnode.unique 3 8], address := 3 }]

/-- Witness: C6_jumptable_detection applied to the concrete four-op jump
table program, every hypothesis discharged there. -/
theorem C6_witness :
    analyze_indirect_branch c6Ops
        { opcode := OpCode.BranchInd, output := none,
          inputs := [Varnode.unique 3 8], address := 3 } =
      some { table_address := 16384, num_entries := 10, entry_size := 8,
             destinations := [], switch_var := Varnode.register 0 8 } ∧
    { table_address := 16384, num_entries := 10, entry_size := 8,
      destinations := [], switch_var := Varnode.register 0 8 : JumpTable }
      ∈ JumpTableDetector.detect c6Ops c6Ops :=
  C6_jumptable_detection c6Ops c6Ops
    { opcode := OpCode.BranchInd, output := none,
      inputs := [Varnode.unique 3 8], address := 3 }
    (PcodeOp.binary OpCode.Load (Varnode.unique 3 8)
      (Varnode.constant 0 8) (Varnode.unique 2 8) 2)
    (PcodeOp.binary OpCode.PtrAdd (Varnode.unique 2 8)
      (Varnode.constant 16384 8) (Varnode.unique 1 8) 1)
    (PcodeOp.binary OpCode.IntMult (Varnode.unique 1 8)
      (Varnode.register 0 8) (Varnode.constant 8 8) 0)
    (Varnode.unique 3 8) (Varnode.unique 2 8) (Varnode.constant 16384 8)
    (Varnode.unique 1 8) (Varnode.register 0 8) (Varnode.constant 8 8)
    (Varnode.constant 0 8) [] [] [] []
    (by decide) (by decide) (by decide) (by decide) (by decide) (by decide)
    (by decide) (by decide) (by decide) (by decide) (by decide) (by decide)
    (by decide) (by decide)

/-! ## Parallel decompiler cache (parallel_analyzer.rs)

`save_cache` writes the entry into the in-process memory cache and then
serializes it to `cache_dir/<hash>.json`; `load_cache` first consults the
memory cache and falls back to reading and deserializing the disk file
(re-populating the memory cache on a disk hit). The structs carry only
`Serialize`/`Deserialize`-derived fields (integers, strings and a map of
them), for which `serde_json::to_string_pretty` followed by `from_str`
reproduces the value, so disk storage is modeled as a map from fingerprint
to the stored cache value; `get_cache_path` maps distinct fingerprints to
distinct files under the fixed cache directory, so the fingerprint itself
keys the map. -/

/-- Mirror of `CachedFunctionResult`. -/
structure CachedFunctionResult where
  address : Nat
  pcode_count : Nat
  block_count : Nat
  type_count : Nat
  loop_count : Nat
  control_structure : String
  cached_at : Nat
  deriving DecidableEq, Repr

/-- Mirror of `DecompileCache` (the results HashMap as an association
list). -/
structure DecompileCache where
  file_hash : String
  results : List (Nat × CachedFunctionResult)
  deriving DecidableEq, Repr

/-- The cache-relevant state of a `ParallelDecompiler`: the memory cache
behind the mutex, and the contents of the cache directory. -/
structure PDState where
  memory_cache : String → Option DecompileCache
  disk : String → Option DecompileCache

/-- Mirror of `ParallelDecompiler::with_strategy` over an existing cache
directory: the memory cache starts empty, the directory contents
persist. -/
def PDState.with_strategy (disk : String → Option DecompileCache) : PDState :=
  { memory_cache := fun _ => none, disk := disk }

/-- Mirror of `ParallelDecompiler::save_cache`: insert into the memory
cache, then write the serialized entry to the per-hash file. -/
def PDState.save_cache (s : PDState) (file_hash : String) (cache : DecompileCache) :
    PDState :=
  { memory_cache := fun k => if k = file_hash then some cache else s.memory_cache k,
    disk := fun k => if k = file_hash then some cache else s.disk k }

/-- Mirror of `ParallelDecompiler::load_cache`: return the memory-cached
entry when present, else read and deserialize the per-hash file,
re-populating the memory cache on a hit. -/
def PDState.load_cache (s : PDState) (file_hash : String) :
    Option DecompileCache × PDState :=
  match s.memory_cache file_hash with
  | some cached => (some cached, s)
  | none =>
      match s.disk file_hash with
      | some cache =>
          (some cache,
           { s with memory_cache :=
               fun k => if k = file_hash then some cache else s.memory_cache k })
      | none => (none, s)

/-! ## SSA renaming (ssa.rs and ssa_advanced.rs)

Both renamers walk the dominator tree through a
`children : HashMap<BlockId, Vec<BlockId>>` map; a dominator tree is
finite and acyclic, so the recursion structure is exactly the rose tree
of block ids unfolded from that map, which is what the embedding
recurses on (`DomTree`/`DomForest`). -/

mutual
inductive DomTree where
  | node : Nat → DomForest → DomTree
inductive DomForest where
  | nil : DomForest
  | cons : DomTree → DomForest → DomForest
end

/-- The block ids at the roots of a forest (the `children` vector of the
parent node). -/
def DomForest.rootIds : DomForest → List Nat
  | DomForest.nil => []
  | DomForest.cons (DomTree.node bid _) rest => bid :: rest.rootIds

/-- Mirror of `VarnodeAddress` (ssa_advanced.rs): the (space, offset)
key identifying a storage location. -/
structure VarnodeAddress where
  space : AddressSpace
  offset : Nat
  deriving DecidableEq, Repr

/-- Mirror of `VarnodeAddress::from(&Varnode)`. -/
def VarnodeAddress.ofVarnode (vn : Varnode) : VarnodeAddress :=
  ⟨vn.space, vn.offset⟩

/-- Mirror of `VariableStack`: a per-address stack of Varnodes (the
`HashMap<VarnodeAddress, Vec<Varnode>>`, an absent key behaving as the
empty stack); the list head is the stack top (the Vec's last element). -/
abbrev VariableStack := VarnodeAddress → List Varnode

/-- Mirror of `VariableStack::push`. -/
def VariableStack.push (s : VariableStack) (vn : Varnode) : VariableStack :=
  fun a => if a = VarnodeAddress.ofVarnode vn then vn :: s a else s a

/-- Mirror of `VariableStack::pop` (popping an absent or empty stack
leaves it empty). -/
def VariableStack.pop (s : VariableStack) (addr : VarnodeAddress) : VariableStack :=
  fun a => if a = addr then (s a).tail else s a

/-- Mirror of `VariableStack::top`. -/
def VariableStack.top (s : VariableStack) (addr : VarnodeAddress) : Option Varnode :=
  (s addr).head?

/-- Mirror of `SSARenameContext`. -/
structure SSARenameContext where
  varstack : VariableStack
  input_counter : Nat
  unique_counter : Nat

/-- Mirror of `SSARenameContext::new`. -/
def SSARenameContext.new : SSARenameContext :=
  ⟨fun _ => [], 0, 10000⟩

/-- Mirror of `SSARenameContext::create_input_varnode` (the promoted
input reuses the address's space and offset). -/
def SSARenameContext.create_input_varnode (c : SSARenameContext)
    (addr : VarnodeAddress) (size : Nat) : Varnode × SSARenameContext :=
  (Varnode.new addr.space addr.offset size,
   { c with input_counter := c.input_counter + 1 })

/-- Mirror of `AdvancedSSATransform::should_rename`: constants are not
renamed, everything else is. -/
def should_rename (vn : Varnode) : Bool :=
  vn.space ≠ AddressSpace.Const

/-- One input of the read-renaming loop in `rename_recurse` (the same
body serves the phi-update phase): replace by the stack top, or promote
the input onto the empty stack. -/
def renameOneInput (c : SSARenameContext) (input : Varnode) :
    SSARenameContext × Varnode :=
  if should_rename input then
    match VariableStack.top c.varstack (VarnodeAddress.ofVarnode input) with
    | some new_vn => (c, new_vn)
    | none =>
        let p := SSARenameContext.create_input_varnode c
          (VarnodeAddress.ofVarnode input) input.size
        ({ p.2 with varstack := VariableStack.push p.2.varstack p.1 }, p.1)
  else (c, input)

/-- The input loop of `rename_recurse` over one op's input list. -/
def renameInputsWithStack (c : SSARenameContext) :
    List Varnode → SSARenameContext × List Varnode
  | [] => (c, [])
  | input :: rest =>
      let p := renameOneInput c input
      let q := renameInputsWithStack p.1 rest
      (q.1, p.2 :: q.2)

/-- The input phase of one op in `rename_recurse`: MultiEqual inputs are
skipped. -/
def renameOpInputsPhase (c : SSARenameContext) (op : PcodeOp) :
    SSARenameContext × List Varnode :=
  if op.opcode ≠ OpCode.MultiEqual then renameInputsWithStack c op.inputs
  else (c, op.inputs)

/-- The output phase of one op in `rename_recurse`: push the output onto
its stack and record its address in the write list. -/
def renameOpOutputs (c : SSARenameContext) (op : PcodeOp) :
    SSARenameContext × List VarnodeAddress :=
  match op.output with
  | some output =>
      if should_rename output then
        ({ c with varstack := VariableStack.push c.varstack output },
         [VarnodeAddress.ofVarnode output])
      else (c, [])
  | none => (c, [])

/-- Both phases of one op in `rename_recurse`. -/
def renameOneOp (c : SSARenameContext) (op : PcodeOp) :
    SSARenameContext × List VarnodeAddress × PcodeOp :=
  let p := renameOpInputsPhase c op
  let q := renameOpOutputs p.1 op
  (q.1, q.2, { op with inputs := p.2 })

/-- The op loop of `rename_recurse` over one block, returning the
context, the write list (in push order) and the rewritten ops. -/
def renameBlockOps (c : SSARenameContext) :
    List PcodeOp → SSARenameContext × List VarnodeAddress × List PcodeOp
  | [] => (c, [], [])
  | op :: rest =>
      let p := renameOneOp c op
      let q := renameBlockOps p.1 rest
      (q.1, p.2.1 ++ q.2.1, p.2.2 :: q.2.2)

/-- The phi-update pass of `rename_recurse` over one child block's ops:
MultiEqual inputs are renamed with the same stack-top/promotion logic. -/
def renamePhiOps (c : SSARenameContext) :
    List PcodeOp → SSARenameContext × List PcodeOp
  | [] => (c, [])
  | op :: rest =>
      let p :=
        if op.opcode = OpCode.MultiEqual then
          let r := renameInputsWithStack c op.inputs
          (r.1, { op with inputs := r.2 })
        else (c, op)
      let q := renamePhiOps p.1 rest
      (q.1, p.2 :: q.2)

/-- The rename-relevant state of an `AdvancedSSATransform` run: the
rename context and the CFG's block map. -/
structure RenameState where
  ctx : SSARenameContext
  blocks : BlockMap

/-- The phi-update loop of `rename_recurse` over the dominator-tree
children's block ids (a missing child block is skipped). -/
def phiUpdateChildren (s : RenameState) : List Nat → RenameState
  | [] => s
  | cid :: rest =>
      match BlockMap.get s.blocks cid with
      | some b =>
          let p := renamePhiOps s.ctx b.ops
          phiUpdateChildren
            ⟨p.1, BlockMap.insert s.blocks cid { b with ops := p.2 }⟩ rest
      | none => phiUpdateChildren s rest

/-- The final pop loop of `rename_recurse` over the write list. -/
def popWriteList (vs : VariableStack) : List VarnodeAddress → VariableStack
  | [] => vs
  | addr :: rest => popWriteList (VariableStack.pop vs addr) rest

mutual
/-- Mirror of `AdvancedSSATransform::rename_recurse`: process the
block's ops (reads renamed from stack tops with promotion of first
reads, writes pushed), update the dominator children's phi inputs,
recurse into the children subtrees, then pop the write list. -/
def rename_recurse (t : DomTree) (s : RenameState) : RenameState :=
  match t with
  | DomTree.node bid children =>
      match BlockMap.get s.blocks bid with
      | none => s
      | some b =>
          let p := renameBlockOps s.ctx b.ops
          let s1 : RenameState :=
            ⟨p.1, BlockMap.insert s.blocks bid { b with ops := p.2.2 }⟩
          let s2 := phiUpdateChildren s1 (DomForest.rootIds children)
          let s3 := rename_children children s2
          ⟨{ s3.ctx with varstack := popWriteList s3.ctx.varstack p.2.1 },
           s3.blocks⟩
/-- The recursion of `rename_recurse` over the dominator-tree children,
in order. -/
def rename_children (f : DomForest) (s : RenameState) : RenameState :=
  match f with
  | DomForest.nil => s
  | DomForest.cons t rest => rename_children rest (rename_recurse t s)
end

/-! The `SSATransform::rename_variables` renamer of ssa.rs keeps
per-Varnode stacks of version numbers and encodes the version into the
high 32 bits of the offset. Its final pop phase is omitted in the
source (the trailing comment says the pops are elided), so the function
performs no pops at all. -/

/-- The version encoding of ssa.rs:
`(offset & 0xFFFFFFFF) | ((version as u64) << 32)` with u64 wrap on the
shift. -/
def versioned (offset version : Nat) : Nat :=
  (offset &&& 0xFFFFFFFF) ||| ((version <<< 32) % 2 ^ 64)

/-- The input renaming of `rename_variables`: a non-constant input whose
Varnode has a nonempty version stack gets the top version encoded into
its offset. -/
def ssaRenameInput (vs : Varnode → List Nat) (input : Varnode) : Varnode :=
  if input.space ≠ AddressSpace.Const then
    match (vs input).head? with
    | some version => { input with offset := versioned input.offset version }
    | none => input
  else input

/-- The op loop of `rename_variables` over one block: rename inputs from
the stacks, then allocate a fresh version for a non-constant output
(incrementing its def counter, pushing the version, encoding it into the
output's offset). -/
def ssaProcessOps (dc : Varnode → Nat) (vs : Varnode → List Nat) :
    List PcodeOp → ((Varnode → Nat) × (Varnode → List Nat) × List PcodeOp)
  | [] => (dc, vs, [])
  | op :: rest =>
      let inputs' := op.inputs.map (ssaRenameInput vs)
      match op.output with
      | some output =>
          if output.space ≠ AddressSpace.Const then
            let version := dc output + 1
            let dc1 : Varnode → Nat := fun v => if v = output then version else dc v
            let vs1 : Varnode → List Nat :=
              fun v => if v = output then version :: vs v else vs v
            let q := ssaProcessOps dc1 vs1 rest
            (q.1, q.2.1,
             { op with inputs := inputs',
                       output := some { output with
                         offset := versioned output.offset version } } :: q.2.2)
          else
            let q := ssaProcessOps dc vs rest
            (q.1, q.2.1, { op with inputs := inputs' } :: q.2.2)
      | none =>
          let q := ssaProcessOps dc vs rest
          (q.1, q.2.1, { op with inputs := inputs' } :: q.2.2)

/-- The successor phi-update loop of `rename_variables`: MultiEqual ops
of each successor block get their inputs renamed from the stacks; the
source unwraps the successor lookup, so a missing successor block is a
panic (none). -/
def ssaPhiUpdate (vs : Varnode → List Nat) (blocks : BlockMap) :
    List Nat → Option BlockMap
  | [] => some blocks
  | succ :: rest =>
      match BlockMap.get blocks succ with
      | some sb =>
          ssaPhiUpdate vs
            (BlockMap.insert blocks succ
              { sb with ops := sb.ops.map (fun op =>
                  if op.opcode = OpCode.MultiEqual then
                    { op with inputs := op.inputs.map (ssaRenameInput vs) }
                  else op) }) rest
      | none => none

/-- The rename-relevant state of an `SSATransform` run: the def
counters, the version stacks (both total with HashMap-absent defaults 0
and []), and the CFG's block map. -/
structure SSATransformState where
  def_counters : Varnode → Nat
  var_stacks : Varnode → List Nat
  blocks : BlockMap

mutual
/-- Mirror of `SSATransform::rename_variables`: rename the block's ops,
update successor phi inputs, recurse into dominator-tree children — and
perform no pops (the source omits them). -/
def rename_variables (t : DomTree) (st : SSATransformState) :
    Option SSATransformState :=
  match t with
  | DomTree.node bid children =>
      match BlockMap.get st.blocks bid with
      | none => some st
      | some b =>
          let p := ssaProcessOps st.def_counters st.var_stacks b.ops
          let blocks1 := BlockMap.insert st.blocks bid { b with ops := p.2.2 }
          match ssaPhiUpdate p.2.1 blocks1 b.successors with
          | none => none
          | some blocks2 => rename_variables_children children ⟨p.1, p.2.1, blocks2⟩
/-- The recursion of `rename_variables` over the dominator-tree
children, in order. -/
def rename_variables_children (f : DomForest) (st : SSATransformState) :
    Option SSATransformState :=
  match f with
  | DomForest.nil => some st
  | DomForest.cons t rest =>
      match rename_variables t st with
      | some st1 => rename_variables_children rest st1
      | none => none
end

/-! Helper notions for the stack-restoration analysis of
`rename_recurse`. -/

/-- How a subtree of renaming evolves a variable stack: each address is
either restored exactly, or was empty on entry and now holds exactly one
promoted input Varnode for that address. -/
def StackEvo (s1 s2 : VariableStack) : Prop :=
  ∀ a, s2 a = s1 a ∨
    (s1 a = [] ∧ ∃ sz, s2 a = [Varnode.new a.space a.offset sz])

theorem stackEvo_refl (s : VariableStack) : StackEvo s s :=
  fun _ => Or.inl rfl

theorem stackEvo_trans {s1 s2 s3 : VariableStack}
    (h12 : StackEvo s1 s2) (h23 : StackEvo s2 s3) : StackEvo s1 s3 := by
  intro a
  rcases h23 a with h | ⟨h2, sz, h3⟩
  · rcases h12 a with h' | ⟨h1, sz', h2'⟩
    · exact Or.inl (h.trans h')
    · exact Or.inr ⟨h1, sz', h.trans h2'⟩
  · rcases h12 a with h' | ⟨h1, sz', h2'⟩
    · exact Or.inr ⟨h'.symm.trans h2, sz, h3⟩
    · rw [h2'] at h2
      cases h2

/-- The mid-block shape of a stack: the block's output pushes on top of
an optional promotion on top of the entry stack, with the write list
counting the output pushes per address. -/
def BlockDecomp (s0 s1 : VariableStack) (wl : List VarnodeAddress) : Prop :=
  ∀ a, ∃ outs promo : List Varnode,
    s1 a = outs ++ promo ++ s0 a ∧
    outs.length = wl.count a ∧
    (promo = [] ∨ (s0 a = [] ∧ ∃ sz, promo = [Varnode.new a.space a.offset sz]))

theorem blockDecomp_of_evo {s0 s1 : VariableStack} (h : StackEvo s0 s1) :
    BlockDecomp s0 s1 [] := by
  intro a
  rcases h a with he | ⟨h0, sz, hv⟩
  · exact ⟨[], [], by simpa using he, by simp, Or.inl rfl⟩
  · refine ⟨[], [Varnode.new a.space a.offset sz], ?_, by simp,
      Or.inr ⟨h0, sz, rfl⟩⟩
    rw [hv, h0]
    simp

theorem blockDecomp_comp {s0 s1 s2 : VariableStack}
    {wl1 wl2 : List VarnodeAddress}
    (h1 : BlockDecomp s0 s1 wl1) (h2 : BlockDecomp s1 s2 wl2) :
    BlockDecomp s0 s2 (wl1 ++ wl2) := by
  intro a
  obtain ⟨o1, p1, he1, hc1, hp1⟩ := h1 a
  obtain ⟨o2, p2, he2, hc2, hp2⟩ := h2 a
  by_cases hs1 : s1 a = []
  · have hnils : o1 ++ p1 = [] ∧ s0 a = [] := by
      rw [hs1] at he1
      exact List.append_eq_nil.mp he1.symm
    have ho1 : o1 = [] := (List.append_eq_nil.mp hnils.1).1
    have hnil0 : s0 a = [] := hnils.2
    refine ⟨o2, p2, ?_, ?_, ?_⟩
    · rw [he2, hs1, hnil0]
    · have hz : wl1.count a = 0 := by
        rw [← hc1, ho1]
        rfl
      rw [hc2, List.count_append, hz, Nat.zero_add]
    · rcases hp2 with h | ⟨_, hsz⟩
      · exact Or.inl h
      · exact Or.inr ⟨hnil0, hsz⟩
  · have hp2' : p2 = [] := by
      rcases hp2 with h | ⟨h, _⟩
      · exact h
      · exact absurd h hs1
    refine ⟨o2 ++ o1, p1, ?_, ?_, ?_⟩
    · rw [he2, hp2', he1]
      simp [List.append_assoc]
    · rw [List.length_append, hc1, hc2, List.count_append]
      omega
    · rcases hp1 with h | h
      · exact Or.inl h
      · exact Or.inr h

theorem renameOneInput_evo (c : SSARenameContext) (input : Varnode) :
    StackEvo c.varstack (renameOneInput c input).1.varstack := by
  unfold renameOneInput
  by_cases hr : should_rename input = true
  · simp only [hr, if_true]
    cases htop : VariableStack.top c.varstack (VarnodeAddress.ofVarnode input) with
    | some v => exact stackEvo_refl _
    | none =>
        intro a
        have hempty : c.varstack (VarnodeAddress.ofVarnode input) = [] := by
          unfold VariableStack.top at htop
          exact List.head?_eq_none_iff.mp htop
        simp only [VarnodeAddress.ofVarnode] at hempty
        simp only [SSARenameContext.create_input_varnode, VariableStack.push,
          VarnodeAddress.ofVarnode, Varnode.new]
        by_cases ha : a = (⟨input.space, input.offset⟩ : VarnodeAddress)
        · subst ha
          refine Or.inr ⟨hempty, input.size, ?_⟩
          rw [if_pos rfl, hempty]
        · rw [if_neg ha]
          exact Or.inl rfl
  · simp only [hr, if_false]
    exact stackEvo_refl _

theorem renameInputsWithStack_evo (c : SSARenameContext) (l : List Varnode) :
    StackEvo c.varstack (renameInputsWithStack c l).1.varstack := by
  induction l generalizing c with
  | nil => exact stackEvo_refl _
  | cons input rest ih =>
      simp only [renameInputsWithStack]
      exact stackEvo_trans (renameOneInput_evo c input) (ih _)

theorem renameOpInputsPhase_evo (c : SSARenameContext) (op : PcodeOp) :
    StackEvo c.varstack (renameOpInputsPhase c op).1.varstack := by
  unfold renameOpInputsPhase
  split
  · exact renameInputsWithStack_evo _ _
  · exact stackEvo_refl _

theorem renameOpOutputs_decomp (c : SSARenameContext) (op : PcodeOp) :
    BlockDecomp c.varstack (renameOpOutputs c op).1.varstack
      (renameOpOutputs c op).2 := by
  unfold renameOpOutputs
  cases ho : op.output with
  | none => exact blockDecomp_of_evo (stackEvo_refl _)
  | some o =>
      by_cases hr : should_rename o = true
      · simp only [hr, if_true]
        intro a
        simp only [VariableStack.push]
        by_cases ha : a = VarnodeAddress.ofVarnode o
        · subst ha
          refine ⟨[o], [], ?_, ?_, Or.inl rfl⟩
          · rw [if_pos rfl]
            simp
          · rw [List.count_cons_self, List.count_nil]
            rfl
        · refine ⟨[], [], ?_, ?_, Or.inl rfl⟩
          · rw [if_neg ha]
            simp
          · rw [List.count_cons_of_ne ha, List.count_nil]
            rfl
      · simp only [hr, if_false]
        exact blockDecomp_of_evo (stackEvo_refl _)

theorem renameOneOp_decomp (c : SSARenameContext) (op : PcodeOp) :
    BlockDecomp c.varstack (renameOneOp c op).1.varstack
      (renameOneOp c op).2.1 := by
  have h1 := blockDecomp_of_evo (renameOpInputsPhase_evo c op)
  have h2 := renameOpOutputs_decomp (renameOpInputsPhase c op).1 op
  have h := blockDecomp_comp h1 h2
  simpa [renameOneOp] using h

theorem renameBlockOps_decomp (c : SSARenameContext) (l : List PcodeOp) :
    BlockDecomp c.varstack (renameBlockOps c l).1.varstack
      (renameBlockOps c l).2.1 := by
  induction l generalizing c with
  | nil => simpa [renameBlockOps] using blockDecomp_of_evo (stackEvo_refl c.varstack)
  | cons op rest ih =>
      have h := blockDecomp_comp (renameOneOp_decomp c op) (ih (renameOneOp c op).1)
      simpa [renameBlockOps] using h

theorem renamePhiOps_evo (c : SSARenameContext) (l : List PcodeOp) :
    StackEvo c.varstack (renamePhiOps c l).1.varstack := by
  induction l generalizing c with
  | nil => exact stackEvo_refl _
  | cons op rest ih =>
      simp only [renamePhiOps]
      by_cases hphi : op.opcode = OpCode.MultiEqual
      · simp only [hphi, if_true]
        exact stackEvo_trans (renameInputsWithStack_evo c op.inputs) (ih _)
      · simp only [hphi, if_false]
        exact ih c

theorem phiUpdateChildren_evo (s : RenameState) (cids : List Nat) :
    StackEvo s.ctx.varstack (phiUpdateChildren s cids).ctx.varstack := by
  induction cids generalizing s with
  | nil => exact stackEvo_refl _
  | cons cid rest ih =>
      simp only [phiUpdateChildren]
      cases hb : BlockMap.get s.blocks cid with
      | some b => exact stackEvo_trans (renamePhiOps_evo s.ctx b.ops) (ih _)
      | none => exact ih s

theorem popWriteList_apply (vs : VariableStack) (wl : List VarnodeAddress)
    (a : VarnodeAddress) :
    popWriteList vs wl a = (vs a).drop (wl.count a) := by
  induction wl generalizing vs with
  | nil => simp [popWriteList]
  | cons b rest ih =>
      simp only [popWriteList]
      rw [ih]
      unfold VariableStack.pop
      by_cases hab : a = b
      · subst hab
        rw [if_pos rfl, List.count_cons_self]
        have ht : (vs a).tail = (vs a).drop 1 := (List.drop_one _).symm
        rw [ht, List.drop_drop, Nat.add_comm]
      · rw [if_neg hab, List.count_cons_of_ne hab]

theorem stackEvo_of_decomp_pop {s0 s1 : VariableStack}
    {wl : List VarnodeAddress} (h : BlockDecomp s0 s1 wl) :
    StackEvo s0 (popWriteList s1 wl) := by
  intro a
  obtain ⟨outs, promo, he, hc, hp⟩ := h a
  rw [popWriteList_apply, he, ← hc, List.append_assoc, List.drop_left]
  rcases hp with hp | ⟨h0, sz, hv⟩
  · rw [hp]
    exact Or.inl (by simp)
  · refine Or.inr ⟨h0, sz, ?_⟩
    rw [hv, h0]
    simp

mutual
/-- The stack-restoration behavior of one `rename_recurse` call. -/
theorem rename_recurse_evo (t : DomTree) (s : RenameState) :
    StackEvo s.ctx.varstack (rename_recurse t s).ctx.varstack := by
  match t with
  | DomTree.node bid children =>
      rw [rename_recurse]
      cases hb : BlockMap.get s.blocks bid with
      | none => exact stackEvo_refl _
      | some b =>
          have hA := renameBlockOps_decomp s.ctx b.ops
          have hB := phiUpdateChildren_evo
            ⟨(renameBlockOps s.ctx b.ops).1,
             BlockMap.insert s.blocks bid
               { b with ops := (renameBlockOps s.ctx b.ops).2.2 }⟩
            (DomForest.rootIds children)
          have hC := rename_children_evo children
            (phiUpdateChildren
              ⟨(renameBlockOps s.ctx b.ops).1,
               BlockMap.insert s.blocks bid
                 { b with ops := (renameBlockOps s.ctx b.ops).2.2 }⟩
              (DomForest.rootIds children))
          have hcomp := blockDecomp_comp
            (blockDecomp_comp hA (blockDecomp_of_evo hB))
            (blockDecomp_of_evo hC)
          simp only [List.append_nil] at hcomp
          exact stackEvo_of_decomp_pop hcomp
/-- The stack-restoration behavior of the child recursion. -/
theorem rename_children_evo (f : DomForest) (s : RenameState) :
    StackEvo s.ctx.varstack (rename_children f s).ctx.varstack := by
  match f with
  | DomForest.nil =>
      rw [rename_children]
      exact stackEvo_refl _
  | DomForest.cons t rest =>
      rw [rename_children]
      exact stackEvo_trans (rename_recurse_evo t s)
        (rename_children_evo rest (rename_recurse t s))
end

/-- The block and state of the C2 counterexample for
`rename_recurse`: one block copying a register into a unique. -/
def c2aState : RenameState :=
  ⟨SSARenameContext.new,
   [(0, { id := 0, start_address := 0, end_address := 0,
          ops := [PcodeOp.unary OpCode.Copy (Varnode.unique 0 8)
                    (Varnode.register 0 8) 0],
          successors := [], predecessors := [] })]⟩

/-- The one-node dominator tree of the C2 counterexample. -/
def c2aTree : DomTree := DomTree.node 0 DomForest.nil

/-- The block and state of the C2 counterexample for
`rename_variables`: one block copying a constant into a register. -/
def c2sState : SSATransformState :=
  ⟨fun _ => 0, fun _ => [],
   [(0, { id := 0, start_address := 0, end_address := 0,
          ops := [PcodeOp.unary OpCode.Copy (Varnode.register 0 8)
                    (Varnode.constant 1 8) 0],
          successors := [], predecessors := [] })]⟩

/-- C2 counterexample: after the renamers finish the whole dominator
tree, stacks are NOT restored to their entry state. `rename_recurse`
leaves the promoted first read of the register on its
previously-empty stack, and `rename_variables` performs no pops at all,
leaving the pushed version of the written register on its stack. -/
theorem C2_counterexample :
    (c2aState.ctx.varstack ⟨AddressSpace.Register, 0⟩ = [] ∧
     (rename_recurse c2aTree c2aState).ctx.varstack ⟨AddressSpace.Register, 0⟩ =
       [Varnode.register 0 8] ∧
     (rename_recurse c2aTree c2aState).ctx.varstack ⟨AddressSpace.Register, 0⟩ ≠
       c2aState.ctx.varstack ⟨AddressSpace.Register, 0⟩) ∧
    (c2sState.var_stacks (Varnode.register 0 8) = [] ∧
     (rename_variables c2aTree c2sState).map
         (fun st => st.var_stacks (Varnode.register 0 8)) = some [1] ∧
     (rename_variables c2aTree c2sState).map
         (fun st => st.var_stacks (Varnode.register 0 8)) ≠
       some (c2sState.var_stacks (Varnode.register 0 8))) := by
  decide

/-- C2 (amended): after `rename_recurse` finishes a block and its
dominator subtree, every per-address stack that was nonempty on entry is
restored exactly (each output push has a matching pop); a stack that was
empty on entry ends either empty or holding exactly one input Varnode
promoted for that address (those promotion pushes have no matching pop).
`rename_variables` of ssa.rs restores nothing, as the counterexample
shows. -/
theorem C2_rename_stack_restoration (t : DomTree) (s : RenameState)
    (a : VarnodeAddress) :
    (rename_recurse t s).ctx.varstack a = s.ctx.varstack a ∨
    (s.ctx.varstack a = [] ∧
      ∃ sz, (rename_recurse t s).ctx.varstack a =
        [Varnode.new a.space a.offset sz]) :=
  rename_recurse_evo t s a

/-- C9: loading right after saving returns exactly the saved entry (the
memory tier answers), and loading from a fresh decompiler over the same
cache directory also returns exactly the saved entry (the disk tier
answers): the save/load pair round-trips on both tiers. -/
theorem C9_cache_round_trip (s : PDState) (fp : String) (c : DecompileCache) :
    ((s.save_cache fp c).load_cache fp).1 = some c ∧
    ((PDState.with_strategy (s.save_cache fp c).disk).load_cache fp).1 = some c := by
  constructor
  · simp [PDState.save_cache, PDState.load_cache]
  · simp [PDState.save_cache, PDState.load_cache, PDState.with_strategy]

/-! ## Copy propagation (dataflow.rs)

`DefUseChain::trace_copy_source` loops with a visited set: insert the
current Varnode (already-visited means return None), fetch its defining
op (no definition means return None via `?`), follow a Copy's first
input, and stop with Some(current) at any non-Copy definition (or a Copy
with no inputs). The loop terminates because each continuing iteration
holds a not-yet-visited Varnode that is some op's output, so the set of
defined-output Varnodes outside the visited list strictly shrinks; that
set's size is the Lean termination measure. -/

/-- The Varnodes defined as some op's output. -/
def definedOutputs (ops : List PcodeOp) : List Varnode :=
  ops.filterMap (fun op => op.output)

/-- A sharper filter keeps at most as many elements. -/
theorem length_filter_le_filter {α : Type} (L : List α) (p q : α → Bool)
    (h : ∀ x, p x = true → q x = true) :
    (L.filter p).length ≤ (L.filter q).length := by
  induction L with
  | nil => simp
  | cons x L ih =>
      simp only [List.filter_cons]
      cases hp : p x with
      | true =>
          rw [h x hp]
          simpa using ih
      | false =>
          cases hq : q x with
          | true =>
              simp
              omega
          | false => simpa using ih

/-- The trace-loop termination measure: the number of defined-output
Varnodes not yet visited. -/
def traceMeasure (ops : List PcodeOp) (visited : List Varnode) : Nat :=
  ((definedOutputs ops).filter (fun v => decide (v ∉ visited))).length

/-- Visiting a defined, not-yet-visited Varnode shrinks the measure. -/
theorem traceMeasure_lt (ops : List PcodeOp) (visited : List Varnode)
    (u : Varnode) (huL : u ∈ definedOutputs ops) (hunv : u ∉ visited) :
    traceMeasure ops (u :: visited) < traceMeasure ops visited := by
  unfold traceMeasure
  generalize definedOutputs ops = L at huL ⊢
  induction L with
  | nil => cases huL
  | cons x L ih =>
      have hmono := length_filter_le_filter L (fun v => decide (v ∉ u :: visited))
        (fun v => decide (v ∉ visited))
        (by
          intro y hy
          simp at hy ⊢
          exact hy.2)
      by_cases hx : x = u
      · subst hx
        have h1 : decide (x ∉ x :: visited) = false := by simp
        have h2 : decide (x ∉ visited) = true := by simpa using hunv
        simp only [List.filter_cons, h1, h2]
        simp only [Bool.false_eq_true, if_false, if_true, List.length_cons]
        omega
      · have hmem : u ∈ L := by
          rcases List.mem_cons.mp huL with h | h
          · exact absurd h.symm hx
          · exact h
        have heq : decide (x ∉ u :: visited) = decide (x ∉ visited) := by
          simp [hx]
        simp only [List.filter_cons, heq]
        cases h2 : decide (x ∉ visited) with
        | true => simpa using ih hmem
        | false => simpa using ih hmem

/-- A Varnode with a `defs` entry is some op's output. -/
theorem defsMap_some_mem
    (l : List (Nat × PcodeOp)) (m0 : Varnode → Option Nat) (v : Varnode) (i : Nat)
    (h : (l.foldl
        (fun m p =>
          match p.2.output with
          | some o => fun w => if w = o then some p.1 else m w
          | none => m) m0) v = some i) :
    m0 v = some i ∨ ∃ p ∈ l, p.2.output = some v := by
  induction l generalizing m0 with
  | nil => exact Or.inl h
  | cons p l ih =>
      rcases ih _ h with hstep | ⟨q, hq, hout⟩
      · cases hpo : p.2.output with
        | none =>
            simp only [hpo] at hstep
            exact Or.inl hstep
        | some o =>
            simp only [hpo] at hstep
            by_cases hv : v = o
            · refine Or.inr ⟨p, List.mem_cons_self _ _, ?_⟩
              rw [hpo, hv]
            · rw [if_neg hv] at hstep
              exact Or.inl hstep
      · exact Or.inr ⟨q, List.mem_cons_of_mem _ hq, hout⟩

/-- A Varnode with a definition is a defined output. -/
theorem get_def_mem_definedOutputs (ops : List PcodeOp) (u : Varnode)
    (d : PcodeOp) (h : get_def ops u = some d) : u ∈ definedOutputs ops := by
  unfold get_def at h
  cases hm : defsMap ops u with
  | none =>
      rw [hm] at h
      cases h
  | some i =>
      unfold defsMap at hm
      rcases defsMap_some_mem ops.enum (fun _ => none) u i hm with h0 | ⟨p, hp, hout⟩
      · cases h0
      · have hsnd : p.2 ∈ ops := by
          have := List.mem_map_of_mem Prod.snd hp
          rwa [List.enum_map_snd] at this
        exact List.mem_filterMap.mpr ⟨p.2, hsnd, hout⟩

/-- Mirror of the loop of `DefUseChain::trace_copy_source`. The
emptiness check of the Copy branch makes its `head?` a `some`; the inner
none branch is unreachable. -/
def traceLoop (ops : List PcodeOp) (visited : List Varnode)
    (current : Varnode) : Option Varnode :=
  if current ∈ visited then none
  else
    match hd : get_def ops current with
    | none => none
    | some def_op =>
        if def_op.opcode = OpCode.Copy ∧ def_op.inputs ≠ [] then
          match def_op.inputs.head? with
          | some i0 => traceLoop ops (current :: visited) i0
          | none => none
        else some current
termination_by traceMeasure ops visited
decreasing_by
  apply traceMeasure_lt
  · exact get_def_mem_definedOutputs ops current def_op hd
  · assumption

/-- Mirror of `DefUseChain::trace_copy_source`. -/
def trace_copy_source (ops : List PcodeOp) (vn : Varnode) : Option Varnode :=
  traceLoop ops [] vn

/-! Branch-level unfolding lemmas for `traceLoop`. -/

theorem traceLoop_of_mem (ops : List PcodeOp) (visited : List Varnode)
    (current : Varnode) (h : current ∈ visited) :
    traceLoop ops visited current = none := by
  rw [traceLoop.eq_def]
  simp [h]

theorem traceLoop_of_nodef (ops : List PcodeOp) (visited : List Varnode)
    (current : Varnode) (h1 : current ∉ visited)
    (h2 : get_def ops current = none) :
    traceLoop ops visited current = none := by
  rw [traceLoop.eq_def, if_neg h1]
  split
  · rfl
  · next def_op heq =>
      rw [h2] at heq
      cases heq

theorem traceLoop_step (ops : List PcodeOp) (visited : List Varnode)
    (current : Varnode) (d : PcodeOp) (i0 : Varnode)
    (h1 : current ∉ visited) (h2 : get_def ops current = some d)
    (h3 : d.opcode = OpCode.Copy ∧ d.inputs ≠ [])
    (h4 : d.inputs.head? = some i0) :
    traceLoop ops visited current = traceLoop ops (current :: visited) i0 := by
  rw [traceLoop.eq_def, if_neg h1]
  split
  · next heq =>
      rw [h2] at heq
      cases heq
  · next def_op heq =>
      rw [h2] at heq
      obtain rfl := Option.some.inj heq
      rw [if_pos h3]
      split
      · next i0h heq2 =>
          rw [h4] at heq2
          obtain rfl := Option.some.inj heq2
          rfl
      · next heq2 =>
          rw [h4] at heq2
          cases heq2

theorem traceLoop_stop (ops : List PcodeOp) (visited : List Varnode)
    (current : Varnode) (d : PcodeOp)
    (h1 : current ∉ visited) (h2 : get_def ops current = some d)
    (h3 : ¬(d.opcode = OpCode.Copy ∧ d.inputs ≠ [])) :
    traceLoop ops visited current = some current := by
  rw [traceLoop.eq_def, if_neg h1]
  split
  · next heq =>
      rw [h2] at heq
      cases heq
  · next def_op heq =>
      rw [h2] at heq
      obtain rfl := Option.some.inj heq
      rw [if_neg h3]

/-- One input step of `CopyPropagation::apply`: substitute the traced
source when it differs, counting the substitution. -/
def substOneInput (chain : List PcodeOp) (input : Varnode) : Varnode × Nat :=
  match trace_copy_source chain input with
  | some source => if source ≠ input then (source, 1) else (input, 0)
  | none => (input, 0)

/-- The input loop of `CopyPropagation::apply` over one op's inputs. -/
def substInputs (chain : List PcodeOp) : List Varnode → List Varnode × Nat
  | [] => ([], 0)
  | v :: rest =>
      let p := substOneInput chain v
      let q := substInputs chain rest
      (p.1 :: q.1, p.2 + q.2)

/-- The op loop of `CopyPropagation::apply`. -/
def applyOps (chain : List PcodeOp) : List PcodeOp → List PcodeOp × Nat
  | [] => ([], 0)
  | op :: rest =>
      let p := substInputs chain op.inputs
      let q := applyOps chain rest
      ({ op with inputs := p.1 } :: q.1, p.2 + q.2)

/-- Mirror of `CopyPropagation::apply`: the du_chain was built from
`chain` and stays fixed while every op's inputs are substituted; returns
the rewritten ops and the propagation count. -/
def CopyPropagation.apply (chain ops : List PcodeOp) : List PcodeOp × Nat :=
  applyOps chain ops

/-- The (total) substitution an apply run performs on one Varnode. -/
def substVarnode (chain : List PcodeOp) (v : Varnode) : Varnode :=
  match trace_copy_source chain v with
  | some source => source
  | none => v

/-- What one apply run does to one op. -/
def substOp (chain : List PcodeOp) (op : PcodeOp) : PcodeOp :=
  { op with inputs := op.inputs.map (substVarnode chain) }

/-- The copy-chain successor of a Varnode: the first input of its
defining Copy op. -/
def nextC (ops : List PcodeOp) (u : Varnode) : Option Varnode :=
  match get_def ops u with
  | some d =>
      if d.opcode = OpCode.Copy ∧ d.inputs ≠ [] then d.inputs.head? else none
  | none => none

/-- A Varnode whose definition stops the trace: a non-Copy op or a Copy
without inputs. -/
def isTermNode (ops : List PcodeOp) (u : Varnode) : Prop :=
  ∃ d, get_def ops u = some d ∧ ¬(d.opcode = OpCode.Copy ∧ d.inputs ≠ [])

/-- The n-step copy chain. -/
def chainN (ops : List PcodeOp) : Nat → Varnode → Option Varnode
  | 0, u => some u
  | n + 1, u =>
      match nextC ops u with
      | some c => chainN ops n c
      | none => none

theorem chainN_succ (ops : List PcodeOp) (n : Nat) (u : Varnode) :
    chainN ops (n + 1) u = (nextC ops u).bind (fun c => chainN ops n c) := by
  cases hn : nextC ops u with
  | some c => simp [chainN, hn]
  | none => simp [chainN, hn]

theorem chainN_one (ops : List PcodeOp) (u : Varnode) :
    chainN ops 1 u = nextC ops u := by
  rw [chainN_succ]
  cases nextC ops u with
  | some c => rfl
  | none => rfl

theorem chainN_add (ops : List PcodeOp) (a b : Nat) (u : Varnode) :
    chainN ops (a + b) u = (chainN ops a u).bind (fun w => chainN ops b w) := by
  induction a generalizing u with
  | zero => simp [chainN]
  | succ a ih =>
      rw [Nat.add_right_comm, chainN_succ, chainN_succ]
      cases hn : nextC ops u with
      | some c => simp [ih c]
      | none => rfl

/-- A successful trace stops at a terminal node reachable along the copy
chain. -/
theorem traceLoop_some_spec (ops : List PcodeOp) :
    ∀ visited u s, traceLoop ops visited u = some s →
      (∃ k, chainN ops k u = some s) ∧ isTermNode ops s := by
  intro visited u
  induction visited, u using traceLoop.induct ops with
  | case1 visited current hmem =>
      intro s h
      rw [traceLoop_of_mem ops visited current hmem] at h
      cases h
  | case2 visited current hmem hd =>
      intro s h
      rw [traceLoop_of_nodef ops visited current hmem hd] at h
      cases h
  | case3 visited current hmem def_op hd hcopy i0 hh ih =>
      intro s h
      rw [traceLoop_step ops visited current def_op i0 hmem hd hcopy hh] at h
      obtain ⟨⟨k, hchain⟩, hterm⟩ := ih s h
      refine ⟨⟨k + 1, ?_⟩, hterm⟩
      have hnext : nextC ops current = some i0 := by
        unfold nextC
        rw [hd]
        show (if def_op.opcode = OpCode.Copy ∧ def_op.inputs ≠ []
          then def_op.inputs.head? else none) = some i0
        rw [if_pos hcopy]
        exact hh
      rw [chainN_succ, hnext]
      exact hchain
  | case4 visited current hmem def_op hd hcopy hh =>
      intro s h
      exact absurd (List.head?_eq_none_iff.mp hh) hcopy.2
  | case5 visited current hmem def_op hd hncopy =>
      intro s h
      rw [traceLoop_stop ops visited current def_op hmem hd hncopy] at h
      obtain rfl := Option.some.inj h
      exact ⟨⟨0, rfl⟩, def_op, hd, hncopy⟩

/-- A chain reaching a terminal node, none of whose nodes is already
visited, makes the trace succeed. -/
theorem chain_term_trace (ops : List PcodeOp) :
    ∀ k u s visited, chainN ops k u = some s → isTermNode ops s →
      (∀ j w, j ≤ k → chainN ops j u = some w → w ∉ visited) →
      traceLoop ops visited u ≠ none := by
  intro k
  induction k using Nat.strong_induction_on with
  | _ k ih =>
      intro u s visited hchain hterm hdisj
      have hu_notvis : u ∉ visited := hdisj 0 u (Nat.zero_le k) rfl
      match k, hchain with
      | 0, hchain =>
          obtain rfl : u = s := by simpa [chainN] using hchain
          obtain ⟨d, hd, hnc⟩ := hterm
          rw [traceLoop_stop ops visited u d hu_notvis hd hnc]
          simp
      | k + 1, hchain =>
          have hstep : ∃ c, nextC ops u = some c ∧ chainN ops k c = some s := by
            rw [chainN_succ] at hchain
            cases hn : nextC ops u with
            | some c =>
                rw [hn] at hchain
                exact ⟨c, rfl, hchain⟩
            | none =>
                rw [hn] at hchain
                cases hchain
          obtain ⟨c, hnext, hchainc⟩ := hstep
          by_cases hrevisit : ∃ i, i ≤ k ∧ chainN ops i c = some u
          · obtain ⟨i, hik, hiu⟩ := hrevisit
            have hloop : chainN ops (i + 1) u = some u := by
              rw [Nat.add_comm, chainN_add, chainN_one, hnext]
              exact hiu
            have hshort : chainN ops (k - i) u = some s := by
              have hk : k + 1 = (i + 1) + (k - i) := by omega
              rw [hk, chainN_add, hloop] at hchain
              exact hchain
            exact ih (k - i) (by omega) u s visited hshort hterm
              (fun j w hj hw => hdisj j w (by omega) hw)
          · push_neg at hrevisit
            have hdisj' : ∀ j w, j ≤ k → chainN ops j c = some w →
                w ∉ (u :: visited) := by
              intro j w hj hw
              intro hmem
              rcases List.mem_cons.mp hmem with rfl | hmem2
              · exact absurd hw (hrevisit j hj)
              · have hw' : chainN ops (j + 1) u = some w := by
                  rw [Nat.add_comm, chainN_add, chainN_one, hnext]
                  exact hw
                exact hdisj (j + 1) w (by omega) hw' hmem2
            have htail := ih k (by omega) c s (u :: visited) hchainc hterm hdisj'
            have hdef : ∃ d, get_def ops u = some d ∧
                (d.opcode = OpCode.Copy ∧ d.inputs ≠ []) ∧
                d.inputs.head? = some c := by
              unfold nextC at hnext
              cases hd : get_def ops u with
              | none =>
                  rw [hd] at hnext
                  cases hnext
              | some d =>
                  rw [hd] at hnext
                  have hnext' : (if d.opcode = OpCode.Copy ∧ d.inputs ≠ []
                      then d.inputs.head? else none) = some c := hnext
                  by_cases hc : d.opcode = OpCode.Copy ∧ d.inputs ≠ []
                  · rw [if_pos hc] at hnext'
                    exact ⟨d, rfl, hc, hnext'⟩
                  · rw [if_neg hc] at hnext'
                    cases hnext'
            obtain ⟨d, hd, hc, hh⟩ := hdef
            rw [traceLoop_step ops visited u d c hu_notvis hd hc hh]
            exact htail

/-- A dead trace stays dead one copy step further down the chain. -/
theorem dead_step (ops : List PcodeOp) (u c : Varnode)
    (hdead : trace_copy_source ops u = none) (hnext : nextC ops u = some c) :
    trace_copy_source ops c = none := by
  cases hs : traceLoop ops [] c with
  | none => exact hs
  | some s =>
      obtain ⟨⟨k, hchain⟩, hterm⟩ := traceLoop_some_spec ops [] c s hs
      have hchain' : chainN ops (k + 1) u = some s := by
        rw [chainN_succ, hnext]
        exact hchain
      have hne := chain_term_trace ops (k + 1) u s [] hchain' hterm
        (by
          intro j w _ _
          exact List.not_mem_nil w)
      exact absurd hdead hne

/-- The first components of `substInputs` are the per-input
substitutions. -/
theorem substInputs_fst (chain : List PcodeOp) (l : List Varnode) :
    (substInputs chain l).1 = l.map (substVarnode chain) := by
  induction l with
  | nil => rfl
  | cons v rest ih =>
      simp only [substInputs, List.map_cons, ih]
      congr 1
      unfold substOneInput substVarnode
      cases trace_copy_source chain v with
      | some s =>
          by_cases hsv : s = v
          · simp [hsv]
          · simp [hsv]
      | none => rfl

/-- The zero-count part of `substInputs` follows the per-input pairs. -/
theorem substInputs_zero (chain : List PcodeOp) (l : List Varnode)
    (h : ∀ v ∈ l, substOneInput chain v = (v, 0)) :
    substInputs chain l = (l, 0) := by
  induction l with
  | nil => rfl
  | cons v rest ih =>
      simp only [substInputs]
      rw [h v (List.mem_cons_self _ _), ih (fun w hw => h w (List.mem_cons_of_mem _ hw))]
      rfl

/-- One apply run maps each op through `substOp`. -/
theorem applyOps_fst (chain : List PcodeOp) (l : List PcodeOp) :
    (applyOps chain l).1 = l.map (substOp chain) := by
  induction l with
  | nil => rfl
  | cons op rest ih =>
      simp only [applyOps, List.map_cons, ih]
      congr 1
      unfold substOp
      rw [substInputs_fst]

/-- An apply run that changes no input returns the list unchanged with
count zero. -/
theorem applyOps_id (chain : List PcodeOp) (l : List PcodeOp)
    (h : ∀ op ∈ l, substInputs chain op.inputs = (op.inputs, 0)) :
    applyOps chain l = (l, 0) := by
  induction l with
  | nil => rfl
  | cons op rest ih =>
      simp only [applyOps]
      rw [h op (List.mem_cons_self _ _), ih (fun q hq => h q (List.mem_cons_of_mem _ hq))]
      rfl

/-- `substOp` keeps outputs, so the defs map of the rewritten list is
unchanged. -/
theorem defsMap_map_substOp (chain ops : List PcodeOp) :
    defsMap (ops.map (substOp chain)) = defsMap ops := by
  unfold defsMap
  rw [List.enum_map, List.foldl_map]
  rfl

/-- `get_def` over the rewritten list is the rewritten definition. -/
theorem get_def_map_substOp (chain ops : List PcodeOp) (v : Varnode) :
    get_def (ops.map (substOp chain)) v = (get_def ops v).map (substOp chain) := by
  unfold get_def
  rw [defsMap_map_substOp]
  cases defsMap ops v with
  | none => rfl
  | some i =>
      simp only [List.get?_map]

/-- Terminal nodes stay terminal after one apply run. -/
theorem isTermNode_map_substOp (chain ops : List PcodeOp) (s : Varnode)
    (h : isTermNode ops s) : isTermNode (ops.map (substOp chain)) s := by
  obtain ⟨d, hd, hnc⟩ := h
  refine ⟨substOp chain d, ?_, ?_⟩
  · rw [get_def_map_substOp, hd]
    rfl
  · intro hcc
    apply hnc
    refine ⟨hcc.1, ?_⟩
    intro hnil
    apply hcc.2
    unfold substOp
    simp [hnil]

/-- Tracing a terminal node returns the node itself. -/
theorem trace_term_self (ops : List PcodeOp) (s : Varnode)
    (h : isTermNode ops s) : trace_copy_source ops s = some s := by
  obtain ⟨d, hd, hnc⟩ := h
  unfold trace_copy_source
  rw [traceLoop_stop ops [] s d (List.not_mem_nil s) hd hnc]

/-- A dead trace stays dead on the once-propagated list: every node on
its chain is itself dead, so its substitution is the identity and the
rewritten list carries the same chain. -/
theorem trace_none_preserved (P : List PcodeOp) :
    ∀ visited u, trace_copy_source P u = none →
      traceLoop (P.map (substOp P)) visited u = none := by
  intro visited u
  induction visited, u using traceLoop.induct (P.map (substOp P)) with
  | case1 visited current hmem =>
      intro _
      exact traceLoop_of_mem _ visited current hmem
  | case2 visited current hmem hd =>
      intro _
      exact traceLoop_of_nodef _ visited current hmem hd
  | case3 visited current hmem def_op hd hcopy i0 hh ih =>
      intro hdead
      have hP : ∃ d, get_def P current = some d ∧ def_op = substOp P d := by
        rw [get_def_map_substOp] at hd
        cases hPd : get_def P current with
        | none =>
            rw [hPd] at hd
            cases hd
        | some d =>
            rw [hPd] at hd
            exact ⟨d, rfl, (Option.some.inj hd).symm⟩
      obtain ⟨d, hPd, rfl⟩ := hP
      have hcopyP : d.opcode = OpCode.Copy ∧ d.inputs ≠ [] := by
        refine ⟨hcopy.1, ?_⟩
        intro hnil
        apply hcopy.2
        unfold substOp
        simp [hnil]
      have hheadP : ∃ i0P, d.inputs.head? = some i0P ∧
          i0 = substVarnode P i0P := by
        have : (substOp P d).inputs.head? = (d.inputs.head?).map (substVarnode P) := by
          unfold substOp
          simp [List.head?_map]
        rw [this] at hh
        cases hI : d.inputs.head? with
        | none =>
            rw [hI] at hh
            cases hh
        | some i0P =>
            rw [hI] at hh
            exact ⟨i0P, rfl, (Option.some.inj hh).symm⟩
      obtain ⟨i0P, hI, rfl⟩ := hheadP
      have hnext : nextC P current = some i0P := by
        unfold nextC
        rw [hPd]
        show (if d.opcode = OpCode.Copy ∧ d.inputs ≠ []
          then d.inputs.head? else none) = some i0P
        rw [if_pos hcopyP]
        exact hI
      have hdead0 := dead_step P current i0P hdead hnext
      have hfix : substVarnode P i0P = i0P := by
        unfold substVarnode
        rw [hdead0]
      rw [traceLoop_step (P.map (substOp P)) visited current (substOp P d)
        (substVarnode P i0P) hmem hd hcopy hh]
      rw [hfix] at ih ⊢
      exact ih hdead0
  | case4 visited current hmem def_op hd hcopy hh =>
      intro _
      exact absurd (List.head?_eq_none_iff.mp hh) hcopy.2
  | case5 visited current hmem def_op hd hncopy =>
      intro hdead
      exfalso
      have hP : ∃ d, get_def P current = some d ∧ def_op = substOp P d := by
        rw [get_def_map_substOp] at hd
        cases hPd : get_def P current with
        | none =>
            rw [hPd] at hd
            cases hd
        | some d =>
            rw [hPd] at hd
            exact ⟨d, rfl, (Option.some.inj hd).symm⟩
      obtain ⟨d, hPd, rfl⟩ := hP
      have hncopyP : ¬(d.opcode = OpCode.Copy ∧ d.inputs ≠ []) := by
        intro hcc
        apply hncopy
        refine ⟨hcc.1, ?_⟩
        intro hnil
        apply hcc.2
        unfold substOp at hnil
        simpa using hnil
      have : trace_copy_source P current = some current :=
        trace_term_self P current ⟨d, hPd, hncopyP⟩
      rw [hdead] at this
      cases this

/-- On the once-propagated list, substituting any already-substituted
input is the identity with count zero. -/
theorem substOneInput_fixed (P : List PcodeOp) (v : Varnode) :
    substOneInput (P.map (substOp P)) (substVarnode P v) =
      (substVarnode P v, 0) := by
  unfold substVarnode
  cases ht : trace_copy_source P v with
  | some s =>
      have hterm : isTermNode P s := (traceLoop_some_spec P [] v s ht).2
      have hterm1 := isTermNode_map_substOp P P s hterm
      have hself := trace_term_self (P.map (substOp P)) s hterm1
      unfold substOneInput
      rw [hself]
      simp
  | none =>
      have hnone := trace_none_preserved P [] v ht
      unfold substOneInput
      unfold trace_copy_source
      rw [hnone]

/-- C5: copy propagation is idempotent. The second run — with its
def-use chain rebuilt from the once-propagated list — performs zero
substitutions and returns the list unchanged. -/
theorem C5_copy_propagation_idempotent (ops : List PcodeOp) :
    CopyPropagation.apply (CopyPropagation.apply ops ops).1
        (CopyPropagation.apply ops ops).1 =
      ((CopyPropagation.apply ops ops).1, 0) := by
  have hfst : (CopyPropagation.apply ops ops).1 = ops.map (substOp ops) := by
    unfold CopyPropagation.apply
    exact applyOps_fst ops ops
  rw [hfst]
  unfold CopyPropagation.apply
  apply applyOps_id
  intro op hop
  obtain ⟨op0, _, rfl⟩ := List.mem_map.mp hop
  apply substInputs_zero
  intro v hv
  have hv0 : ∃ w, v = substVarnode ops w := by
    have : v ∈ op0.inputs.map (substVarnode ops) := by
      simpa [substOp] using hv
    obtain ⟨w, _, rfl⟩ := List.mem_map.mp this
    exact ⟨w, rfl⟩
  obtain ⟨w, rfl⟩ := hv0
  exact substOneInput_fixed ops w

end Kensho
